import Mathlib

/-!
Verification of the dual shortest-path engine (Dijkstra + Ant Colony
Optimization) of this repository, shallowly embedded in Lean 4.

Modelling conventions used throughout:
* Python floats are modelled as exact rationals (`ℚ`); the `float('inf')`
  "no edge" sentinel is `⊤` in `W := WithTop ℚ`.
* Node identifiers are strings, exactly as in the Python sources; matrix
  indices produced by the index maps are natural numbers.  The solvers,
  which the sources only ever run on indices delivered by the index maps,
  are embedded over `Fin n` indices.
* A Python `dict` built by a comprehension is modelled by a lookup function
  with last-write-wins semantics; a missing-key `KeyError` is modelled by
  `Option` (`none` = the Python call raises).
* `np.random.choice` and the ambient random generator are modelled by an
  explicitly threaded stream `ℕ → ℚ` of samples in `[0,1)`, consumed via
  the inverse-CDF construction over the given probability vector.
* Wall-clock execution times returned by the Python code are dropped.
-/

/-- Extended weights: rationals plus the `float('inf')` sentinel. -/
abbrev W : Type := WithTop ℚ

/-- Matrix entry access `matrix[i][j]`, with `⊤` for out-of-range access
(all verified accesses are in range). -/
def mget (M : List (List W)) (i j : ℕ) : W := (M.getD i []).getD j ⊤

/-- In-place matrix write `matrix[i][j] = w` (no-op out of range; all
verified writes are in range). -/
def mset (M : List (List W)) (i j : ℕ) (w : W) : List (List W) :=
  M.set i ((M.getD i []).set j w)

namespace SpecModels

/-- `Node` from `src/database/models.py` (only `id` feeds the algorithms;
`label`, `x`, `y` are layout data). -/
structure NodeM where
  id : String
  label : String
  x : ℚ
  y : ℚ
deriving DecidableEq, Repr

/-- `Edge` from `src/database/models.py`. -/
structure EdgeM where
  from_node : String
  to_node : String
  weight : ℚ
deriving DecidableEq, Repr

/-- `Graph` from `src/database/models.py` (persistence metadata dropped). -/
structure GraphM where
  name : String
  nodes : List NodeM
  edges : List EdgeM
deriving DecidableEq, Repr

/-- The dict comprehension `{node.id: i for i, node in enumerate(self.nodes)}`
starting at index `k`: a later binding of the same id overwrites an earlier
one. -/
def nodeToIdxFrom (k : ℕ) : List NodeM → String → Option ℕ
  | [], _ => none
  | nd :: rest, x =>
    match nodeToIdxFrom (k + 1) rest x with
    | some i => some i
    | none => if x = nd.id then some k else none

/-- The id → matrix-index map `node_to_idx`. -/
def nodeToIdx (nodes : List NodeM) : String → Option ℕ := nodeToIdxFrom 0 nodes

/-- The matrix after `matrix = [[inf]*n for _ in range(n)]` followed by the
diagonal-zeroing loop. -/
def diagZeroMatrix (n : ℕ) : List (List W) :=
  (List.range n).foldl (fun M i => mset M i i 0)
    (List.replicate n (List.replicate n (⊤ : W)))

/-- The edge-filling loop of `Graph.get_adjacency_matrix`: each edge writes
its weight at `(i, j)` and `(j, i)`; an edge endpoint missing from
`node_to_idx` raises `KeyError` (modelled as `none`). -/
def fillEdges (f : String → Option ℕ) : List (List W) → List EdgeM →
    Option (List (List W))
  | M, [] => some M
  | M, e :: rest =>
    match f e.from_node, f e.to_node with
    | some i, some j => fillEdges f (mset (mset M i j (e.weight : ℚ)) j i e.weight) rest
    | _, _ => none

/-- `Graph.get_adjacency_matrix` from `src/database/models.py`. -/
def get_adjacency_matrix (g : GraphM) :
    Option ((String → Option ℕ) × List (List W)) :=
  let f := nodeToIdx g.nodes
  (fillEdges f (diagZeroMatrix g.nodes.length) g.edges).map fun M => (f, M)

/-- The edge `e` joins the nodes mapped to indices `i` and `j` (in either
orientation) under the index map `f`. -/
def joinsPair (f : String → Option ℕ) (i j : ℕ) (e : EdgeM) : Prop :=
  (f e.from_node = some i ∧ f e.to_node = some j) ∨
  (f e.from_node = some j ∧ f e.to_node = some i)

instance (f : String → Option ℕ) (i j : ℕ) (e : EdgeM) :
    Decidable (joinsPair f i j e) := by
  unfold joinsPair; infer_instance

/-- The weight of the last edge in list order joining the nodes mapped to
`i` and `j`, or the `⊤` sentinel when no edge joins them. -/
def lastEdgeWeight (f : String → Option ℕ) (es : List EdgeM) (i j : ℕ) : W :=
  match (es.filter fun e => decide (joinsPair f i j e)).getLast? with
  | some e => (e.weight : W)
  | none => ⊤

end SpecModels

namespace SpecModels

/-- An `n × n` matrix. -/
def Square (n : ℕ) (M : List (List W)) : Prop :=
  M.length = n ∧ ∀ row ∈ M, row.length = n

theorem square_replicate (n : ℕ) :
    Square n (List.replicate n (List.replicate n (⊤ : W))) := by
  constructor
  · simp
  · intro row hrow
    rw [List.eq_of_mem_replicate hrow]
    simp

theorem length_mset (M : List (List W)) (i j : ℕ) (w : W) :
    (mset M i j w).length = M.length := by
  simp [mset]

theorem square_mset {n : ℕ} {M : List (List W)} (h : Square n M)
    (i j : ℕ) (w : W) : Square n (mset M i j w) := by
  refine ⟨by rw [length_mset]; exact h.1, ?_⟩
  intro row hrow
  by_cases hi : i < M.length
  · rcases List.mem_or_eq_of_mem_set hrow with hmem | heq
    · exact h.2 row hmem
    · subst heq
      rw [List.length_set]
      have : M.getD i [] = M[i] := by
        rw [List.getD_eq_getElem?_getD, List.getElem?_eq_getElem hi]
        rfl
      rw [this]
      exact h.2 _ (List.getElem_mem hi)
  · rw [mset, List.set_eq_of_length_le (by omega)] at hrow
    exact h.2 row hrow

theorem mget_mset {n : ℕ} {M : List (List W)} (h : Square n M)
    {i j : ℕ} (hi : i < n) (hj : j < n) (w : W) (a b : ℕ) :
    mget (mset M i j w) a b = if a = i ∧ b = j then w else mget M a b := by
  have hlen : i < M.length := h.1 ▸ hi
  have hrowget : M.getD i [] = M[i] := by
    rw [List.getD_eq_getElem?_getD, List.getElem?_eq_getElem hlen]; rfl
  have hrowlen : (M[i]).length = n := h.2 _ (List.getElem_mem hlen)
  unfold mget mset
  by_cases ha : a = i
  · subst ha
    have h1 : (M.set a ((M.getD a []).set j w)).getD a [] = (M.getD a []).set j w := by
      rw [List.getD_eq_getElem?_getD, List.getElem?_set_self (by simpa using hlen)]
      rfl
    rw [h1]
    by_cases hb : b = j
    · subst hb
      simp only [and_self, if_pos rfl]
      rw [List.getD_eq_getElem?_getD,
        List.getElem?_set_self (by rw [hrowget, hrowlen]; exact hj)]
      rfl
    · simp only [hb, and_false, if_false]
      rw [List.getD_eq_getElem?_getD, List.getElem?_set_ne (fun hjb => hb hjb.symm),
        ← List.getD_eq_getElem?_getD]
  · simp only [ha, false_and, if_false]
    have h1 : (M.set i ((M.getD i []).set j w)).getD a [] = M.getD a [] := by
      rw [List.getD_eq_getElem?_getD, List.getElem?_set_ne (fun hia => ha hia.symm),
        ← List.getD_eq_getElem?_getD]
    rw [h1]

theorem mget_replicate (n a b : ℕ) :
    mget (List.replicate n (List.replicate n (⊤ : W))) a b = ⊤ := by
  unfold mget
  by_cases ha : a < n
  · have h1 : (List.replicate n (List.replicate n (⊤ : W))).getD a [] =
        List.replicate n (⊤ : W) := by
      rw [List.getD_eq_getElem?_getD, List.getElem?_replicate]
      simp [ha]
    rw [h1, List.getD_eq_getElem?_getD, List.getElem?_replicate]
    by_cases hb : b < n <;> simp [hb]
  · have h1 : (List.replicate n (List.replicate n (⊤ : W))).getD a [] = [] := by
      rw [List.getD_eq_getElem?_getD, List.getElem?_eq_none (by simpa using ha)]
      rfl
    rw [h1]
    rfl

theorem diagFold_spec {n : ℕ} (l : List ℕ) (hl : ∀ i ∈ l, i < n) :
    ∀ M : List (List W), Square n M →
      Square n (l.foldl (fun M i => mset M i i 0) M) ∧
      ∀ a b, mget (l.foldl (fun M i => mset M i i 0) M) a b =
        if a = b ∧ a ∈ l then 0 else mget M a b := by
  induction l with
  | nil => intro M hM; exact ⟨hM, by simp⟩
  | cons i rest ih =>
    intro M hM
    have hi : i < n := hl i (List.mem_cons_self i rest)
    have hM' : Square n (mset M i i 0) := square_mset hM i i 0
    obtain ⟨hsq, hspec⟩ := ih (fun x hx => hl x (List.mem_cons_of_mem i hx)) _ hM'
    refine ⟨hsq, fun a b => ?_⟩
    rw [List.foldl_cons, hspec a b, mget_mset hM hi hi 0 a b]
    simp only [List.mem_cons]
    by_cases h1 : a = b ∧ a ∈ rest
    · obtain ⟨rfl, hmem⟩ := h1
      simp [hmem]
    · by_cases h2 : a = i ∧ b = i
      · have hab : a = b := h2.1.trans h2.2.symm
        simp [h1, h2, hab, h2.1]
      · have h3 : ¬(a = b ∧ (a = i ∨ a ∈ rest)) := by
          rintro ⟨rfl, h | h⟩
          · exact h2 ⟨h, h⟩
          · exact h1 ⟨rfl, h⟩
        simp [h1, h2, h3]

theorem square_diagZeroMatrix (n : ℕ) : Square n (diagZeroMatrix n) :=
  (diagFold_spec (List.range n) (fun i hi => List.mem_range.mp hi) _
    (square_replicate n)).1

theorem mget_diagZeroMatrix (n a b : ℕ) :
    mget (diagZeroMatrix n) a b = if a = b ∧ a < n then 0 else ⊤ := by
  have := (diagFold_spec (List.range n) (fun i hi => List.mem_range.mp hi) _
    (square_replicate n)).2 a b
  unfold diagZeroMatrix
  rw [this, mget_replicate]
  simp [List.mem_range]

theorem mget_write2 {n : ℕ} {M : List (List W)} (h : Square n M)
    {i j : ℕ} (hi : i < n) (hj : j < n) (w : W) (a b : ℕ) :
    mget (mset (mset M i j w) j i w) a b =
      if (a = j ∧ b = i) ∨ (a = i ∧ b = j) then w else mget M a b := by
  rw [mget_mset (square_mset h i j w) hj hi w a b, mget_mset h hi hj w a b]
  by_cases h1 : a = j ∧ b = i
  · simp [h1]
  · by_cases h2 : a = i ∧ b = j
    · simp [h1, h2]
    · simp [h1, h2]

theorem getLast?_filter_cons {α : Type} [DecidableEq α] (p : α → Bool) (e : α)
    (rest : List α) :
    ((e :: rest).filter p).getLast? =
      if rest.filter p = [] then (if p e then some e else none)
      else (rest.filter p).getLast? := by
  rw [List.filter_cons]
  cases hfr : rest.filter p with
  | nil =>
    by_cases hpe : p e <;> simp [hpe, hfr]
  | cons x xs =>
    by_cases hpe : p e <;> simp [hpe, hfr]

theorem fillEdges_spec {n : ℕ} (f : String → Option ℕ)
    (hf : ∀ x k, f x = some k → k < n) :
    ∀ (es : List EdgeM) (M M' : List (List W)), Square n M →
      fillEdges f M es = some M' →
      Square n M' ∧ ∀ a b, mget M' a b =
        (match (es.filter fun e => decide (joinsPair f a b e)).getLast? with
         | some e => (e.weight : W)
         | none => mget M a b) := by
  intro es
  induction es with
  | nil =>
    intro M M' hM h
    rw [fillEdges] at h
    cases h
    exact ⟨hM, by simp⟩
  | cons e rest ih =>
    intro M M' hM h
    rw [fillEdges] at h
    cases hfrom : f e.from_node with
    | none => rw [hfrom] at h; cases h
    | some i =>
      cases hto : f e.to_node with
      | none => rw [hfrom, hto] at h; cases h
      | some j =>
        rw [hfrom, hto] at h
        have hi : i < n := hf _ _ hfrom
        have hj : j < n := hf _ _ hto
        have hM2 : Square n (mset (mset M i j (e.weight : ℚ)) j i e.weight) :=
          square_mset (square_mset hM i j _) j i _
        obtain ⟨hsq, hspec⟩ := ih _ M' hM2 h
        refine ⟨hsq, fun a b => ?_⟩
        rw [hspec a b, getLast?_filter_cons]
        cases hfr : (rest.filter fun e => decide (joinsPair f a b e)).getLast? with
        | some e' =>
          have hne : (rest.filter fun e => decide (joinsPair f a b e)) ≠ [] := by
            intro hnil
            rw [hnil] at hfr
            cases hfr
          simp only [hne, if_false, hfr]
        | none =>
          have hnil : (rest.filter fun e => decide (joinsPair f a b e)) = [] :=
            List.getLast?_eq_none_iff.mp hfr
          simp only [hnil, if_pos rfl, hfr]
          rw [mget_write2 hM hi hj _ a b]
          by_cases hpe : joinsPair f a b e
          · have hcond : (a = j ∧ b = i) ∨ (a = i ∧ b = j) := by
              rcases hpe with ⟨h1, h2⟩ | ⟨h1, h2⟩
              · rw [hfrom] at h1; rw [hto] at h2
                right
                exact ⟨(Option.some_inj.mp h1).symm, (Option.some_inj.mp h2).symm⟩
              · rw [hfrom] at h1; rw [hto] at h2
                left
                exact ⟨(Option.some_inj.mp h2).symm, (Option.some_inj.mp h1).symm⟩
            simp [hpe, hcond]
          · have hcond : ¬((a = j ∧ b = i) ∨ (a = i ∧ b = j)) := by
              rintro (⟨rfl, rfl⟩ | ⟨rfl, rfl⟩)
              · exact hpe (Or.inr ⟨hfrom, hto⟩)
              · exact hpe (Or.inl ⟨hfrom, hto⟩)
            simp [hpe, hcond]

theorem fillEdges_total (f : String → Option ℕ) :
    ∀ (es : List EdgeM) (M : List (List W)),
      (∀ e ∈ es, (f e.from_node).isSome ∧ (f e.to_node).isSome) →
      ∃ M', fillEdges f M es = some M' := by
  intro es
  induction es with
  | nil => intro M _; exact ⟨M, rfl⟩
  | cons e rest ih =>
    intro M hres
    obtain ⟨h1, h2⟩ := hres e (List.mem_cons_self e rest)
    obtain ⟨i, hfrom⟩ := Option.isSome_iff_exists.mp h1
    obtain ⟨j, hto⟩ := Option.isSome_iff_exists.mp h2
    obtain ⟨M', hM'⟩ := ih (mset (mset M i j (e.weight : ℚ)) j i e.weight)
      (fun e' he' => hres e' (List.mem_cons_of_mem e he'))
    refine ⟨M', ?_⟩
    rw [fillEdges, hfrom, hto]
    exact hM'

theorem nodeToIdxFrom_ge {nodes : List NodeM} :
    ∀ {k : ℕ} {x : String} {i : ℕ}, nodeToIdxFrom k nodes x = some i → k ≤ i := by
  induction nodes with
  | nil => intro k x i h; cases h
  | cons nd rest ih =>
    intro k x i h
    rw [nodeToIdxFrom] at h
    cases hrest : nodeToIdxFrom (k + 1) rest x with
    | some i' =>
      rw [hrest] at h
      cases h
      exact Nat.le_of_succ_le (ih hrest)
    | none =>
      rw [hrest] at h
      by_cases hx : x = nd.id
      · rw [if_pos hx] at h
        cases h
        exact Nat.le_refl _
      · rw [if_neg hx] at h
        cases h

theorem nodeToIdxFrom_lt {nodes : List NodeM} :
    ∀ {k : ℕ} {x : String} {i : ℕ}, nodeToIdxFrom k nodes x = some i →
      i < k + nodes.length := by
  induction nodes with
  | nil => intro k x i h; cases h
  | cons nd rest ih =>
    intro k x i h
    rw [nodeToIdxFrom] at h
    cases hrest : nodeToIdxFrom (k + 1) rest x with
    | some i' =>
      rw [hrest] at h
      cases h
      have := ih hrest
      simp only [List.length_cons]
      omega
    | none =>
      rw [hrest] at h
      by_cases hx : x = nd.id
      · rw [if_pos hx] at h
        cases h
        simp only [List.length_cons]
        omega
      · rw [if_neg hx] at h
        cases h

theorem nodeToIdxFrom_inj {nodes : List NodeM} :
    ∀ {k : ℕ} {x y : String} {i : ℕ}, nodeToIdxFrom k nodes x = some i →
      nodeToIdxFrom k nodes y = some i → x = y := by
  induction nodes with
  | nil => intro k x y i hx; cases hx
  | cons nd rest ih =>
    intro k x y i hx hy
    rw [nodeToIdxFrom] at hx hy
    cases hrx : nodeToIdxFrom (k + 1) rest x with
    | some ix =>
      rw [hrx] at hx
      cases hx
      cases hry : nodeToIdxFrom (k + 1) rest y with
      | some iy =>
        rw [hry] at hy
        cases hy
        exact ih hrx hry
      | none =>
        rw [hry] at hy
        by_cases hyid : y = nd.id
        · rw [if_pos hyid] at hy
          cases hy
          have := nodeToIdxFrom_ge hrx
          omega
        · rw [if_neg hyid] at hy
          cases hy
    | none =>
      rw [hrx] at hx
      by_cases hxid : x = nd.id
      · rw [if_pos hxid] at hx
        cases hx
        cases hry : nodeToIdxFrom (k + 1) rest y with
        | some iy =>
          rw [hry] at hy
          cases hy
          have := nodeToIdxFrom_ge hry
          omega
        | none =>
          rw [hry] at hy
          by_cases hyid : y = nd.id
          · rw [hxid, hyid]
          · rw [if_neg hyid] at hy
            cases hy
      · rw [if_neg hxid] at hx
        cases hx

theorem nodeToIdx_lt {nodes : List NodeM} {x : String} {i : ℕ}
    (h : nodeToIdx nodes x = some i) : i < nodes.length := by
  have := nodeToIdxFrom_lt h
  omega

theorem nodeToIdx_inj {nodes : List NodeM} {x y : String} {i : ℕ}
    (hx : nodeToIdx nodes x = some i) (hy : nodeToIdx nodes y = some i) : x = y :=
  nodeToIdxFrom_inj hx hy

theorem get_adjacency_matrix_spec (g : GraphM) (f : String → Option ℕ)
    (M : List (List W)) (hget : get_adjacency_matrix g = some (f, M)) :
    f = nodeToIdx g.nodes ∧ Square g.nodes.length M ∧
    ∀ a b, mget M a b =
      (match (g.edges.filter fun e => decide (joinsPair f a b e)).getLast? with
       | some e => (e.weight : W)
       | none => if a = b ∧ a < g.nodes.length then 0 else ⊤) := by
  unfold get_adjacency_matrix at hget
  obtain ⟨M₀, hfill, heq⟩ := Option.map_eq_some'.mp hget
  obtain ⟨hf, hM⟩ := Prod.mk.injEq _ _ _ _ ▸ heq
  subst hM
  refine ⟨hf.symm, ?_⟩
  subst hf
  obtain ⟨hsq, hspec⟩ := @fillEdges_spec g.nodes.length _
    (fun x k h => nodeToIdx_lt h) g.edges _ M₀
    (square_diagZeroMatrix g.nodes.length) hfill
  refine ⟨hsq, fun a b => ?_⟩
  rw [hspec a b]
  cases (g.edges.filter fun e => decide (joinsPair (nodeToIdx g.nodes) a b e)).getLast? with
  | some e => rfl
  | none => exact mget_diagZeroMatrix g.nodes.length a b

/-- Claim C4 (amended): for every node list and every edge list whose entries
are loop-free (`from ≠ to`), the adjacency matrix produced by
`Graph.get_adjacency_matrix` is square of size equal to the node count, has
`matrix[i][i] = 0` for every `i`, has `matrix[i][j]` (for `i ≠ j`) equal to
the weight of the last edge in list order between the nodes mapped to `i`
and `j` and the `+∞` sentinel when no such edge exists, and satisfies
`matrix[i][j] = matrix[j][i]` for all `i`, `j`. -/
theorem C4_adjacency_matrix_amended (g : GraphM) (f : String → Option ℕ)
    (M : List (List W)) (hget : get_adjacency_matrix g = some (f, M))
    (hsl : ∀ e ∈ g.edges, e.from_node ≠ e.to_node) :
    M.length = g.nodes.length ∧ (∀ row ∈ M, row.length = g.nodes.length) ∧
    (∀ i, i < g.nodes.length → mget M i i = 0) ∧
    (∀ i j, mget M i j = mget M j i) ∧
    (∀ i j, i ≠ j → mget M i j = lastEdgeWeight f g.edges i j) := by
  obtain ⟨hf, hsq, hspec⟩ := get_adjacency_matrix_spec g f M hget
  subst hf
  refine ⟨hsq.1, hsq.2, ?_, ?_, ?_⟩
  · intro i hi
    rw [hspec i i]
    have hempty : (g.edges.filter fun e =>
        decide (joinsPair (nodeToIdx g.nodes) i i e)) = [] := by
      rw [List.filter_eq_nil_iff]
      intro e he
      simp only [decide_eq_true_eq]
      rintro (⟨h1, h2⟩ | ⟨h1, h2⟩) <;>
        exact hsl e he (nodeToIdx_inj h1 h2)
    rw [hempty]
    simp [hi]
  · intro a b
    rw [hspec a b, hspec b a]
    have hfilter : (g.edges.filter fun e =>
        decide (joinsPair (nodeToIdx g.nodes) a b e)) =
        (g.edges.filter fun e => decide (joinsPair (nodeToIdx g.nodes) b a e)) := by
      apply List.filter_congr
      intro e _
      exact decide_eq_decide.mpr or_comm
    rw [hfilter]
    cases (g.edges.filter fun e =>
        decide (joinsPair (nodeToIdx g.nodes) b a e)).getLast? with
    | some e => rfl
    | none =>
      by_cases hab : a = b
      · subst hab; rfl
      · have hba : ¬b = a := fun h => hab h.symm
        simp [hab, hba]
  · intro i j hij
    rw [hspec i j]
    unfold lastEdgeWeight
    cases (g.edges.filter fun e =>
        decide (joinsPair (nodeToIdx g.nodes) i j e)).getLast? with
    | some e => rfl
    | none => simp [hij]

/-- A graph whose edge list contains a self-loop (which `validate_graph` does
not reject): the builder overwrites the zero diagonal. -/
def gSelfLoop : GraphM :=
  ⟨"g", [⟨"a", "A", 0, 0⟩, ⟨"b", "B", 0, 0⟩], [⟨"a", "a", 5⟩]⟩

/-- Claim C4, counterexample: on a two-node graph with the single self-loop
edge `(a, a, 5)`, the produced matrix has `matrix[0][0] = 5`, not `0` as the
claim requires of every node-list/edge-list input. -/
theorem C4_counterexample :
    (get_adjacency_matrix gSelfLoop).map (fun p => mget p.2 0 0) = some 5 ∧
    ¬ (get_adjacency_matrix gSelfLoop).map (fun p => mget p.2 0 0) = some 0 := by
  constructor
  · decide
  · decide

/-- A well-formed two-node graph with one edge, used to instantiate the
amended C4 theorem. -/
def gPair : GraphM :=
  ⟨"g", [⟨"a", "A", 0, 0⟩, ⟨"b", "B", 0, 0⟩], [⟨"a", "b", 3⟩]⟩

/-- The matrix `get_adjacency_matrix` produces on `gPair`. -/
def gPairMatrix : List (List W) := [[0, (3 : ℚ)], [(3 : ℚ), 0]]

/-- Claim C4, witness: the amended theorem applied to the concrete graph
`gPair`. -/
theorem C4_witness :
    mget gPairMatrix 0 0 = 0 ∧ mget gPairMatrix 1 1 = 0 ∧
    mget gPairMatrix 0 1 = lastEdgeWeight (nodeToIdx gPair.nodes) gPair.edges 0 1 ∧
    mget gPairMatrix 0 1 = mget gPairMatrix 1 0 := by
  have h := C4_adjacency_matrix_amended gPair (nodeToIdx gPair.nodes) gPairMatrix
    (by rfl) (by decide)
  exact ⟨h.2.2.1 0 (by decide), h.2.2.1 1 (by decide),
    h.2.2.2.2 0 1 (by decide), h.2.2.2.1 0 1⟩

/-- Claim C10: when the edge list contains multiple edges between the same
unordered pair of nodes (including reversed orientations), both matrix
orientations `(i, j)` and `(j, i)` receive the weight of the last such edge
in list order, and the produced matrix is symmetric for every edge list
input whose endpoints resolve in the index map. -/
theorem C10_last_edge_wins (g : GraphM) (f : String → Option ℕ)
    (M : List (List W)) (hget : get_adjacency_matrix g = some (f, M)) :
    (∀ i j, mget M i j = mget M j i) ∧
    (∀ i j, i ≠ j → mget M i j = lastEdgeWeight f g.edges i j ∧
      mget M j i = lastEdgeWeight f g.edges i j) := by
  obtain ⟨hf, hsq, hspec⟩ := get_adjacency_matrix_spec g f M hget
  subst hf
  have hsym : ∀ a b, mget M a b = mget M b a := by
    intro a b
    rw [hspec a b, hspec b a]
    have hfilter : (g.edges.filter fun e =>
        decide (joinsPair (nodeToIdx g.nodes) a b e)) =
        (g.edges.filter fun e => decide (joinsPair (nodeToIdx g.nodes) b a e)) := by
      apply List.filter_congr
      intro e _
      exact decide_eq_decide.mpr or_comm
    rw [hfilter]
    cases (g.edges.filter fun e =>
        decide (joinsPair (nodeToIdx g.nodes) b a e)).getLast? with
    | some e => rfl
    | none =>
      by_cases hab : a = b
      · subst hab; rfl
      · have hba : ¬b = a := fun h => hab h.symm
        simp [hab, hba]
  have hlast : ∀ i j, i ≠ j → mget M i j =
      lastEdgeWeight (nodeToIdx g.nodes) g.edges i j := by
    intro i j hij
    rw [hspec i j]
    unfold lastEdgeWeight
    cases (g.edges.filter fun e =>
        decide (joinsPair (nodeToIdx g.nodes) i j e)).getLast? with
    | some e => rfl
    | none => simp [hij]
  exact ⟨hsym, fun i j hij => ⟨hlast i j hij, (hsym j i).trans (hlast i j hij)⟩⟩

/-- A multigraph-like edge list: three edges between nodes `a` and `b`, the
middle one with reversed orientation. -/
def gMulti : GraphM :=
  ⟨"g", [⟨"a", "A", 0, 0⟩, ⟨"b", "B", 0, 0⟩],
   [⟨"a", "b", 1⟩, ⟨"b", "a", 7⟩, ⟨"a", "b", 2⟩]⟩

/-- The matrix `get_adjacency_matrix` produces on `gMulti`. -/
def gMultiMatrix : List (List W) := [[0, (2 : ℚ)], [(2 : ℚ), 0]]

/-- Claim C10, witness: on `gMulti` both orientations hold the weight `2` of
the last duplicate edge, and the matrix is symmetric. -/
theorem C10_witness :
    mget gMultiMatrix 0 1 = lastEdgeWeight (nodeToIdx gMulti.nodes) gMulti.edges 0 1 ∧
    mget gMultiMatrix 1 0 = lastEdgeWeight (nodeToIdx gMulti.nodes) gMulti.edges 0 1 ∧
    lastEdgeWeight (nodeToIdx gMulti.nodes) gMulti.edges 0 1 = ((2 : ℚ) : W) ∧
    mget gMultiMatrix 0 1 = mget gMultiMatrix 1 0 := by
  have h := C10_last_edge_wins gMulti (nodeToIdx gMulti.nodes) gMultiMatrix (by rfl)
  obtain ⟨h1, h2⟩ := h.2 0 1 (by decide)
  exact ⟨h1, h2, by decide, h.1 0 1⟩

/-- The edge weight looked up between two node ids through the index map
(`⊤` when a lookup fails; all verified uses resolve). -/
def idsW (f : String → Option ℕ) (M : List (List W)) (a b : String) : W :=
  match f a, f b with
  | some i, some j => mget M i j
  | _, _ => ⊤

/-- The sum of the edge weights along consecutive path nodes. -/
def idsPathCost (f : String → Option ℕ) (M : List (List W)) : List String → W
  | [] => 0
  | [_] => 0
  | a :: b :: rest => idsW f M a b + idsPathCost f M (b :: rest)

/-- The accumulation loop of `GraphUtils.calculate_path_distance`: walks the
consecutive pairs, returns `inf` as soon as a pair has no edge, and raises
`KeyError` (modelled `none`) when a path entry is missing from the map. -/
def pathDistLoop (M : List (List W)) (f : String → Option ℕ) :
    List String → W → Option W
  | [], total => some total
  | [_], total => some total
  | a :: b :: rest, total =>
    match f a, f b with
    | some i, some j =>
      let d := mget M i j
      if d = ⊤ then some ⊤
      else pathDistLoop M f (b :: rest) (total + d)
    | _, _ => none

/-- `GraphUtils.calculate_path_distance` from `src/algorithms/graph_utils.py`. -/
def calculate_path_distance (M : List (List W)) (f : String → Option ℕ)
    (path : List String) : Option W :=
  if path.length < 2 then some 0
  else pathDistLoop M f path 0

theorem pathDistLoop_spec (M : List (List W)) (f : String → Option ℕ) :
    ∀ (path : List String) (total : W),
      (∀ x ∈ path, (f x).isSome) →
      pathDistLoop M f path total = some (total + idsPathCost f M path) := by
  intro path
  induction path with
  | nil => intro total _; simp [pathDistLoop, idsPathCost]
  | cons a rest ih =>
    intro total hres
    cases rest with
    | nil => simp [pathDistLoop, idsPathCost]
    | cons b rest' =>
      obtain ⟨i, hfa⟩ := Option.isSome_iff_exists.mp
        (hres a (List.mem_cons_self a _))
      obtain ⟨j, hfb⟩ := Option.isSome_iff_exists.mp
        (hres b (List.mem_cons_of_mem a (List.mem_cons_self b _)))
      rw [pathDistLoop, hfa, hfb]
      dsimp only
      have hw : idsW f M a b = mget M i j := by rw [idsW, hfa, hfb]
      by_cases htop : mget M i j = ⊤
      · rw [if_pos htop, idsPathCost, hw, htop]
        simp
      · rw [if_neg htop, ih (total + mget M i j)
          (fun x hx => hres x (List.mem_cons_of_mem a hx)), idsPathCost, hw]
        rw [add_assoc]

theorem idsPathCost_top_of_pair (f : String → Option ℕ) (M : List (List W)) :
    ∀ (path : List String) (a b : String),
      (a, b) ∈ path.zip path.tail → idsW f M a b = ⊤ →
      idsPathCost f M path = ⊤ := by
  intro path
  induction path with
  | nil => intro a b h; cases h
  | cons x rest ih =>
    intro a b hmem htop
    cases rest with
    | nil => cases hmem
    | cons y rest' =>
      rw [idsPathCost]
      simp only [List.tail_cons, List.zip_cons_cons, List.mem_cons] at hmem
      rcases hmem with heq | hmem
      · obtain ⟨rfl, rfl⟩ := Prod.mk.injEq _ _ _ _ ▸ heq
        rw [htop]
        simp
      · rw [ih a b hmem htop]
        simp

/-- Claim C7: for every path of node ids whose entries all resolve in the
index map, `calculate_path_distance` returns `0` when the path has fewer
than 2 nodes, returns the `+∞` sentinel when some consecutive pair of path
nodes has no edge, and otherwise returns the sum of the edge weights along
consecutive path nodes. -/
theorem C7_calculate_path_distance (M : List (List W)) (f : String → Option ℕ)
    (path : List String) (hres : ∀ x ∈ path, (f x).isSome) :
    (path.length < 2 → calculate_path_distance M f path = some 0) ∧
    ((∃ p ∈ path.zip path.tail, idsW f M p.1 p.2 = ⊤) →
      calculate_path_distance M f path = some ⊤) ∧
    (2 ≤ path.length →
      calculate_path_distance M f path = some (idsPathCost f M path)) := by
  have hloop := pathDistLoop_spec M f path 0 hres
  refine ⟨fun hlt => by rw [calculate_path_distance, if_pos hlt], ?_, ?_⟩
  · rintro ⟨⟨a, b⟩, hmem, htop⟩
    have hlen : ¬ path.length < 2 := by
      rcases path with _ | ⟨x, _ | ⟨y, rest⟩⟩
      · cases hmem
      · cases hmem
      · simp
    rw [calculate_path_distance, if_neg hlen, hloop,
      idsPathCost_top_of_pair f M path a b hmem htop]
    simp
  · intro hge
    rw [calculate_path_distance, if_neg (by omega), hloop, zero_add]

/-- Claim C7, witness: the theorem applied to the two-node path `[a, b]` on
the concrete graph `gPair`, and to a short path. -/
theorem C7_witness :
    calculate_path_distance gPairMatrix (nodeToIdx gPair.nodes) ["a", "b"] =
      some (idsPathCost (nodeToIdx gPair.nodes) gPairMatrix ["a", "b"]) ∧
    calculate_path_distance gPairMatrix (nodeToIdx gPair.nodes) ["a"] = some 0 := by
  have h1 := C7_calculate_path_distance gPairMatrix (nodeToIdx gPair.nodes)
    ["a", "b"] (by decide)
  have h2 := C7_calculate_path_distance gPairMatrix (nodeToIdx gPair.nodes)
    ["a"] (by decide)
  exact ⟨h1.2.2 (by decide), h2.1 (by decide)⟩

/-- The distinct validation outcomes of `GraphUtils.validate_graph` (each
constructor stands for one of the distinct Ukrainian message strings of the
source, with the dangling endpoint id carried explicitly). -/
inductive ValidateMsg where
  | missingKeys
  | tooFewNodes
  | duplicateIds
  | unknownNode (id : String)
  | nonPositiveWeight
  | notConnected
  | valid
deriving DecidableEq, Repr

/-- The raw request payload handed to `validate_graph`: a dict that may lack
the `nodes` or `edges` keys. -/
structure GraphData where
  nodesField : Option (List NodeM)
  edgesField : Option (List EdgeM)

/-- The per-edge check loop of `validate_graph`: endpoint-from, endpoint-to,
then strict weight positivity, returning the first violation. -/
def checkEdges (node_ids : List String) : List EdgeM → Option ValidateMsg
  | [] => none
  | e :: rest =>
    if e.from_node ∉ node_ids then some (.unknownNode e.from_node)
    else if e.to_node ∉ node_ids then some (.unknownNode e.to_node)
    else if e.weight ≤ 0 then some .nonPositiveWeight
    else checkEdges node_ids rest

/-- One `adjacency[k].append(v)` step on the adjacency dict. -/
def adjAppend (adj : String → List String) (k v : String) :
    String → List String :=
  fun x => if x = k then adj k ++ [v] else adj x

/-- The adjacency dict built by `_is_connected` (`{id: []}` then both
directions of every edge appended in edge order; the dict is modelled as a
total function defaulting to `[]`, which agrees with the source whenever
every endpoint occurs among the node ids — the only situation in which the
source runs it without raising `KeyError`). -/
def buildAdjacency (edges : List EdgeM) : String → List String :=
  edges.foldl
    (fun adj e =>
      adjAppend (adjAppend adj e.from_node e.to_node) e.to_node e.from_node)
    (fun _ => [])

/-- All node ids mentioned by the graph: the finite universe the DFS can
ever touch. -/
def dfsUniv (nodes : List NodeM) (edges : List EdgeM) : Finset String :=
  (nodes.map NodeM.id ++
    edges.flatMap (fun e => [e.from_node, e.to_node])).toFinset

theorem adjFold_values (P : String → Prop) :
    ∀ (es : List EdgeM) (adj0 : String → List String),
      (∀ x y, y ∈ adj0 x → P y) →
      (∀ e ∈ es, P e.from_node ∧ P e.to_node) →
      ∀ x y,
        y ∈ (es.foldl
          (fun adj e =>
            adjAppend (adjAppend adj e.from_node e.to_node) e.to_node e.from_node)
          adj0) x → P y := by
  intro es
  induction es with
  | nil => intro adj0 h0 _ x y hy; exact h0 x y hy
  | cons e rest ih =>
    intro adj0 h0 hes x y hy
    rw [List.foldl_cons] at hy
    refine ih _ ?_ (fun e' he' => hes e' (List.mem_cons_of_mem e he')) x y hy
    intro x' y' hy'
    unfold adjAppend at hy'
    by_cases hx1 : x' = e.to_node
    · rw [if_pos hx1] at hy'
      rcases List.mem_append.mp hy' with h | h
      · by_cases hx2 : e.to_node = e.from_node
        · rw [if_pos hx2] at h
          rcases List.mem_append.mp h with h' | h'
          · exact h0 _ _ h'
          · rw [List.mem_singleton.mp h']
            exact (hes e (List.mem_cons_self e rest)).2
        · rw [if_neg hx2] at h
          exact h0 _ _ h
      · rw [List.mem_singleton.mp h]
        exact (hes e (List.mem_cons_self e rest)).1
    · rw [if_neg hx1] at hy'
      by_cases hx2 : x' = e.from_node
      · rw [if_pos hx2] at hy'
        rcases List.mem_append.mp hy' with h | h
        · exact h0 _ _ h
        · rw [List.mem_singleton.mp h]
          exact (hes e (List.mem_cons_self e rest)).2
      · rw [if_neg hx2] at hy'
        exact h0 _ _ hy'

theorem buildAdjacency_mem_univ (nodes : List NodeM) (edges : List EdgeM) :
    ∀ x, ∀ y ∈ buildAdjacency edges x, y ∈ dfsUniv nodes edges := by
  intro x y hy
  refine adjFold_values (fun z => z ∈ dfsUniv nodes edges) edges _
    (fun _ _ h => absurd h (List.not_mem_nil _)) ?_ x y hy
  intro e he
  have hmem : ∀ z ∈ [e.from_node, e.to_node], z ∈ dfsUniv nodes edges := by
    intro z hz
    unfold dfsUniv
    rw [List.mem_toFinset, List.mem_append]
    exact Or.inr (List.mem_flatMap.mpr ⟨e, he, hz⟩)
  exact ⟨hmem _ (by simp), hmem _ (by simp)⟩

/-- The DFS stack loop of `_is_connected` (the Python list-stack is modelled
with its top at the head, so `stack.pop()` is a head match and
`stack.extend(adjacency[current])` pushes the adjacency list; the visited
result, which is all `_is_connected` consumes, does not depend on the pop
order).  The `U`-membership proofs only feed the termination measure. -/
def dfsLoop (adj : String → List String) (U : Finset String)
    (hadj : ∀ x, ∀ y ∈ adj x, y ∈ U) :
    (visited : Finset String) → visited ⊆ U →
    (stack : List String) → (∀ x ∈ stack, x ∈ U) → Finset String
  | visited, _, [], _ => visited
  | visited, hvis, c :: rest, hstack =>
    if hc : c ∈ visited then
      dfsLoop adj U hadj visited hvis rest
        (fun x hx => hstack x (List.mem_cons_of_mem c hx))
    else
      dfsLoop adj U hadj (insert c visited)
        (Finset.insert_subset (hstack c (List.mem_cons_self c rest)) hvis)
        (rest ++ adj c)
        (fun x hx => by
          rcases List.mem_append.mp hx with h | h
          · exact hstack x (List.mem_cons_of_mem c h)
          · exact hadj c x h)
termination_by visited _ stack _ => ((U.card + 1) - visited.card, stack.length)
decreasing_by
  · apply Prod.Lex.right
    exact Nat.lt_succ_self rest.length
  · apply Prod.Lex.left
    have h1 : (insert c visited).card = visited.card + 1 :=
      Finset.card_insert_of_not_mem hc
    have h2 : visited.card ≤ U.card := Finset.card_le_card hvis
    omega

/-- `GraphUtils._is_connected` from `src/algorithms/graph_utils.py`. -/
def is_connected (nodes : List NodeM) (edges : List EdgeM) : Bool :=
  match hn : nodes with
  | [] => false
  | n0 :: _ =>
    (dfsLoop (buildAdjacency edges) (dfsUniv nodes edges)
      (buildAdjacency_mem_univ nodes edges) ∅ (Finset.empty_subset _)
      [n0.id]
      (fun x hx => by
        have hx' : x = n0.id := by simpa using hx
        subst hx'
        have hmem : n0 ∈ nodes := by rw [hn]; exact List.mem_cons_self _ _
        unfold dfsUniv
        rw [List.mem_toFinset, List.mem_append]
        exact Or.inl (List.mem_map_of_mem NodeM.id hmem))).card = nodes.length

/-- `GraphUtils.validate_graph` from `src/algorithms/graph_utils.py`. -/
def validate_graph (g : GraphData) : Bool × ValidateMsg :=
  match g.nodesField, g.edgesField with
  | some nodes, some edges =>
    if nodes.length < 2 then (false, .tooFewNodes)
    else
      let node_ids := nodes.map NodeM.id
      if node_ids.dedup.length ≠ node_ids.length then (false, .duplicateIds)
      else
        match checkEdges node_ids edges with
        | some msg => (false, msg)
        | none =>
          if is_connected nodes edges then (true, .valid)
          else (false, .notConnected)
  | _, _ => (false, .missingKeys)

/-- An edge violates check (d) or (e): an endpoint missing from the node
ids, or a non-positive weight. -/
def badEdgeB (node_ids : List String) (e : EdgeM) : Bool :=
  decide (e.from_node ∉ node_ids) || decide (e.to_node ∉ node_ids) ||
    decide (e.weight ≤ 0)

/-- The violation message an edge earns: endpoint-from, then endpoint-to,
then the weight check. -/
def edgeViolationMsg (node_ids : List String) (e : EdgeM) : ValidateMsg :=
  if e.from_node ∉ node_ids then .unknownNode e.from_node
  else if e.to_node ∉ node_ids then .unknownNode e.to_node
  else .nonPositiveWeight

theorem checkEdges_eq_find? (node_ids : List String) :
    ∀ es : List EdgeM, checkEdges node_ids es =
      (es.find? (badEdgeB node_ids)).map (edgeViolationMsg node_ids) := by
  intro es
  induction es with
  | nil => rfl
  | cons e rest ih =>
    rw [checkEdges]
    by_cases h1 : e.from_node ∉ node_ids
    · rw [if_pos h1, List.find?_cons_of_pos _ (by simp [badEdgeB, h1])]
      simp [edgeViolationMsg, h1]
    · rw [if_neg h1]
      by_cases h2 : e.to_node ∉ node_ids
      · rw [if_pos h2, List.find?_cons_of_pos _ (by simp [badEdgeB, h2])]
        simp [edgeViolationMsg, h1, h2]
      · rw [if_neg h2]
        by_cases h3 : e.weight ≤ 0
        · rw [if_pos h3, List.find?_cons_of_pos _ (by simp [badEdgeB, h3])]
          simp [edgeViolationMsg, h1, h2]
        · rw [if_neg h3, ih, List.find?_cons_of_neg _ (by simp [badEdgeB, h1, h2, h3])]

theorem dedup_length_eq_iff_nodup {l : List String} :
    l.dedup.length = l.length ↔ l.Nodup := by
  constructor
  · intro h
    have := (List.dedup_sublist l).eq_of_length h
    rw [← this]
    exact l.nodup_dedup
  · intro h
    rw [List.dedup_eq_self.mpr h]

/-- Claim C6 (amended): `validate_graph` checks, in order, (a) both
collections present, (b) at least 2 nodes, (c) node ids unique, then walks
the edge list once, checking for each edge in list order first its `from`
endpoint, then its `to` endpoint, then strict weight positivity, and
finally (f) connectivity; the first violation encountered in this order is
the one reported, without aggregation.  In particular a violation of (d)
and a violation of (e) on different edges are reported in edge-list order,
the earlier edge winning — not (d) first. -/
theorem C6_validate_first_violation (g : GraphData) :
    ((g.nodesField = none ∨ g.edgesField = none) →
      validate_graph g = (false, .missingKeys)) ∧
    (∀ nodes edges, g.nodesField = some nodes → g.edgesField = some edges →
      (nodes.length < 2 → validate_graph g = (false, .tooFewNodes)) ∧
      (2 ≤ nodes.length →
        (¬ (nodes.map NodeM.id).Nodup →
          validate_graph g = (false, .duplicateIds)) ∧
        ((nodes.map NodeM.id).Nodup →
          (∀ e, edges.find? (badEdgeB (nodes.map NodeM.id)) = some e →
            validate_graph g =
              (false, edgeViolationMsg (nodes.map NodeM.id) e)) ∧
          (edges.find? (badEdgeB (nodes.map NodeM.id)) = none →
            (is_connected nodes edges = true →
              validate_graph g = (true, .valid)) ∧
            (is_connected nodes edges = false →
              validate_graph g = (false, .notConnected)))))) := by
  constructor
  · intro hmiss
    unfold validate_graph
    rcases hmiss with h | h <;> rw [h]
    all_goals try rfl
    all_goals cases g.nodesField <;> rfl
  · intro nodes edges hn he
    unfold validate_graph
    rw [hn, he]
    dsimp only
    constructor
    · intro hlt
      rw [if_pos hlt]
    · intro hge
      rw [if_neg (by omega)]
      constructor
      · intro hdup
        rw [if_pos (by
          intro hlen
          exact hdup (dedup_length_eq_iff_nodup.mp hlen))]
      · intro hnodup
        rw [if_neg (by
          rw [Decidable.not_not]
          exact dedup_length_eq_iff_nodup.mpr hnodup)]
        constructor
        · intro e hfind
          rw [checkEdges_eq_find?, hfind]
          rfl
        · intro hfind
          rw [checkEdges_eq_find?, hfind]
          constructor
          · intro hconn
            simp only [Option.map_none', hconn, if_true]
          · intro hconn
            simp only [Option.map_none', hconn, Bool.false_eq_true, if_false]

/-- Three well-formed nodes and two edges: the first edge has a non-positive
weight (check (e)), the second a dangling endpoint (check (d)). -/
def gValOrder : GraphData :=
  ⟨some [⟨"a", "A", 0, 0⟩, ⟨"b", "B", 0, 0⟩, ⟨"c", "C", 0, 0⟩],
   some [⟨"a", "b", -1⟩, ⟨"a", "zz", 1⟩]⟩

/-- Claim C6, counterexample: on `gValOrder` — which violates (d) and (e)
on different edges — the reported violation is the weight error of the
earlier edge, not the dangling-endpoint error the claim requires. -/
theorem C6_counterexample :
    validate_graph gValOrder = (false, .nonPositiveWeight) ∧
    validate_graph gValOrder ≠ (false, .unknownNode "zz") := by
  constructor
  · decide
  · decide

/-- A payload with a dangling edge endpoint before a bad weight: here the
first violating edge carries the (d) violation. -/
def gValOrder2 : GraphData :=
  ⟨some [⟨"a", "A", 0, 0⟩, ⟨"b", "B", 0, 0⟩, ⟨"c", "C", 0, 0⟩],
   some [⟨"a", "zz", 1⟩, ⟨"a", "b", -1⟩]⟩

/-- Claim C6, witness: the amended theorem applied to concrete payloads —
a missing-keys payload, and the two edge-violation payloads, reported in
edge-list order. -/
theorem C6_witness :
    validate_graph (⟨none, some []⟩ : GraphData) = (false, .missingKeys) ∧
    validate_graph gValOrder = (false, .nonPositiveWeight) ∧
    validate_graph gValOrder2 = (false, .unknownNode "zz") := by
  refine ⟨(C6_validate_first_violation ⟨none, some []⟩).1 (Or.inl rfl), ?_, ?_⟩
  · have h := ((((C6_validate_first_violation gValOrder).2 _ _ rfl rfl).2
      (by decide)).2 (by decide)).1 ⟨"a", "b", -1⟩ (by decide)
    rw [h]
    rfl
  · have h := ((((C6_validate_first_violation gValOrder2).2 _ _ rfl rfl).2
      (by decide)).2 (by decide)).1 ⟨"a", "zz", 1⟩ (by decide)
    rw [h]
    rfl

/-- The cost of a vertex sequence: the sum of the adjacency entries along
consecutive vertices (`⊤` as soon as a step has no edge). -/
def pathCost {n : ℕ} (A : Fin n → Fin n → W) : List (Fin n) → W
  | [] => 0
  | [_] => 0
  | a :: b :: rest => A a b + pathCost A (b :: rest)

/-- A walk from `s` to `t`: a nonempty vertex sequence starting at `s`,
ending at `t`, every consecutive pair joined by a finite-weight edge. -/
def Walk {n : ℕ} (A : Fin n → Fin n → W) (s t : Fin n)
    (p : List (Fin n)) : Prop :=
  p.head? = some s ∧ p.getLast? = some t ∧ pathCost A p ≠ ⊤

/-- A simple path: a walk without repeated vertices. -/
def SimplePath {n : ℕ} (A : Fin n → Fin n → W) (s t : Fin n)
    (p : List (Fin n)) : Prop :=
  Walk A s t p ∧ p.Nodup

/-- `t` is reachable from `s` through finite-weight edges. -/
def Reachable {n : ℕ} (A : Fin n → Fin n → W) (s t : Fin n) : Prop :=
  ∃ p, Walk A s t p

theorem pathCost_cons₂ {n : ℕ} (A : Fin n → Fin n → W) (a b : Fin n)
    (rest : List (Fin n)) :
    pathCost A (a :: b :: rest) = A a b + pathCost A (b :: rest) := rfl

theorem walk_single {n : ℕ} (A : Fin n → Fin n → W) (s : Fin n) :
    Walk A s s [s] := by
  refine ⟨rfl, rfl, ?_⟩
  rw [pathCost]
  simp

theorem reachable_self {n : ℕ} (A : Fin n → Fin n → W) (s : Fin n) :
    Reachable A s s := ⟨[s], walk_single A s⟩

theorem pathCost_concat {n : ℕ} (A : Fin n → Fin n → W) :
    ∀ (p : List (Fin n)) (b c : Fin n), p.getLast? = some b →
      pathCost A (p ++ [c]) = pathCost A p + A b c := by
  intro p
  induction p with
  | nil => intro b c h; cases h
  | cons a rest ih =>
    intro b c h
    cases rest with
    | nil =>
      have hb : a = b := by simpa using h
      subst hb
      show pathCost A (a :: [c]) = pathCost A [a] + A a c
      rw [pathCost_cons₂]
      show A a c + 0 = 0 + A a c
      rw [zero_add, add_zero]
    | cons a' rest' =>
      have h' : (a' :: rest').getLast? = some b := by
        rw [List.getLast?_cons_cons] at h
        exact h
      have e1 : pathCost A ((a :: a' :: rest') ++ [c]) =
          A a a' + pathCost A ((a' :: rest') ++ [c]) := rfl
      rw [e1, ih b c h', pathCost_cons₂, add_assoc]

theorem pathCost_split {n : ℕ} (A : Fin n → Fin n → W) :
    ∀ (l₁ : List (Fin n)) (x : Fin n) (l₂ : List (Fin n)),
      pathCost A (l₁ ++ x :: l₂) = pathCost A (l₁ ++ [x]) + pathCost A (x :: l₂) := by
  intro l₁
  induction l₁ with
  | nil =>
    intro x l₂
    show pathCost A (x :: l₂) = pathCost A [x] + pathCost A (x :: l₂)
    show pathCost A (x :: l₂) = 0 + pathCost A (x :: l₂)
    rw [zero_add]
  | cons a rest ih =>
    intro x l₂
    cases rest with
    | nil =>
      have e1 : pathCost A ([a] ++ x :: l₂) = A a x + pathCost A (x :: l₂) := rfl
      have e2 : pathCost A ([a] ++ [x]) = A a x + 0 := rfl
      rw [e1, e2, add_zero]
    | cons a' rest' =>
      have e1 : pathCost A ((a :: a' :: rest') ++ x :: l₂) =
          A a a' + pathCost A ((a' :: rest') ++ x :: l₂) := rfl
      have e2 : pathCost A ((a :: a' :: rest') ++ [x]) =
          A a a' + pathCost A ((a' :: rest') ++ [x]) := rfl
      rw [e1, e2, ih x l₂, add_assoc]

/-- Nonnegative finite weights (what positive-or-sentinel entries give). -/
def NonnegW {n : ℕ} (A : Fin n → Fin n → W) : Prop :=
  ∀ i j, A i j = ⊤ ∨ 0 ≤ A i j

theorem weight_nonneg {n : ℕ} {A : Fin n → Fin n → W} (h : NonnegW A)
    (i j : Fin n) : 0 ≤ A i j := by
  rcases h i j with ht | hge
  · rw [ht]; exact le_top
  · exact hge

theorem pathCost_nonneg {n : ℕ} {A : Fin n → Fin n → W} (h : NonnegW A) :
    ∀ p : List (Fin n), 0 ≤ pathCost A p := by
  intro p
  induction p with
  | nil => rw [pathCost]
  | cons a rest ih =>
    cases rest with
    | nil => rw [pathCost]
    | cons b rest' =>
      rw [pathCost_cons₂]
      exact add_nonneg (weight_nonneg h a b) ih

theorem lt_add_of_pos_W {a c : W} (ha : a ≠ ⊤) (hc : 0 < c) : a < a + c := by
  induction a using WithTop.recTopCoe with
  | top => exact absurd rfl ha
  | coe q =>
    induction c using WithTop.recTopCoe with
    | top =>
      rw [add_top]
      exact WithTop.coe_lt_top q
    | coe r =>
      rw [← WithTop.coe_add, WithTop.coe_lt_coe]
      have hr : (0 : ℚ) < r := by exact_mod_cast hc
      linarith

theorem head?_append_cons {α : Type} (l₁ : List α) (x : α) (l₂ : List α) :
    (l₁ ++ x :: l₂).head? = (match l₁ with | [] => some x | a :: _ => some a) := by
  cases l₁ <;> rfl

theorem getLast?_append_cons {α : Type} (l₁ : List α) (x : α) (l₂ : List α) :
    (l₁ ++ x :: l₂).getLast? = (x :: l₂).getLast? := by
  rw [List.getLast?_append]
  cases h : (x :: l₂).getLast? with
  | none => exact absurd (List.getLast?_eq_none_iff.mp h) (List.cons_ne_nil x l₂)
  | some b => rfl

theorem exists_first_notmem {n : ℕ} (S : Finset (Fin n)) :
    ∀ (p : List (Fin n)) (x : Fin n), x ∈ p → x ∉ S →
      ∃ p₁ z p₂, p = p₁ ++ z :: p₂ ∧ (∀ y ∈ p₁, y ∈ S) ∧ z ∉ S := by
  intro p
  induction p with
  | nil => intro x hx; cases hx
  | cons a rest ih =>
    intro x hx hxS
    by_cases ha : a ∈ S
    · have hxr : x ∈ rest := by
        rcases List.mem_cons.mp hx with rfl | h
        · exact absurd ha hxS
        · exact h
      obtain ⟨p₁, z, p₂, heq, hall, hz⟩ := ih x hxr hxS
      exact ⟨a :: p₁, z, p₂, by rw [heq]; rfl, by
        intro y hy
        rcases List.mem_cons.mp hy with rfl | h
        · exact ha
        · exact hall y h, hz⟩
    · refine ⟨[], a, rest, rfl, ?_, ha⟩
      intro y hy
      cases hy

theorem exists_last_occ {α : Type} : ∀ (p : List α) (u : α), u ∈ p →
    ∃ p₁ p₂, p = p₁ ++ u :: p₂ ∧ u ∉ p₂ := by
  intro p
  induction p with
  | nil => intro u hu; cases hu
  | cons a rest ih =>
    intro u hu
    by_cases hur : u ∈ rest
    · obtain ⟨p₁, p₂, heq, hnot⟩ := ih u hur
      exact ⟨a :: p₁, p₂, by rw [heq]; rfl, hnot⟩
    · rcases List.mem_cons.mp hu with rfl | h
      · exact ⟨[], rest, rfl, hur⟩
      · exact absurd h hur

theorem exists_first_occ {α : Type} [DecidableEq α] :
    ∀ (p : List α) (u : α), u ∈ p →
      ∃ p₁ p₂, p = p₁ ++ u :: p₂ ∧ u ∉ p₁ := by
  intro p
  induction p with
  | nil => intro u hu; cases hu
  | cons a rest ih =>
    intro u hu
    by_cases ha : u = a
    · subst ha
      exact ⟨[], rest, rfl, List.not_mem_nil u⟩
    · have hur : u ∈ rest := by
        rcases List.mem_cons.mp hu with h | h
        · exact absurd h ha
        · exact h
      obtain ⟨p₁, p₂, heq, hnot⟩ := ih u hur
      refine ⟨a :: p₁, p₂, by rw [heq]; rfl, ?_⟩
      intro hmem
      rcases List.mem_cons.mp hmem with h | h
      · exact ha h
      · exact hnot h

theorem exists_dup_split {α : Type} [DecidableEq α] :
    ∀ p : List α, ¬ p.Nodup →
      ∃ x l₁ l₂ l₃, p = l₁ ++ x :: (l₂ ++ x :: l₃) := by
  intro p
  induction p with
  | nil => intro h; exact absurd List.nodup_nil h
  | cons a rest ih =>
    intro h
    by_cases ha : a ∈ rest
    · obtain ⟨s, t, heq⟩ := List.append_of_mem ha
      exact ⟨a, [], s, t, by rw [heq]; rfl⟩
    · have : ¬ rest.Nodup := by
        intro hnd
        exact h (List.nodup_cons.mpr ⟨ha, hnd⟩)
      obtain ⟨x, l₁, l₂, l₃, heq⟩ := ih this
      exact ⟨x, a :: l₁, l₂, l₃, by rw [heq]; rfl⟩

theorem exists_simple_of_walk {n : ℕ} {A : Fin n → Fin n → W}
    (Hnn : NonnegW A) (s t : Fin n) :
    ∀ (N : ℕ) (p : List (Fin n)), p.length ≤ N → Walk A s t p →
      ∃ q, SimplePath A s t q ∧ pathCost A q ≤ pathCost A p := by
  intro N
  induction N with
  | zero =>
    intro p hlen hw
    rcases p with _ | ⟨a, rest⟩
    · cases hw.1
    · simp at hlen
  | succ N ih =>
    intro p hlen hw
    by_cases hnd : p.Nodup
    · exact ⟨p, ⟨hw, hnd⟩, le_refl _⟩
    · obtain ⟨x, l₁, l₂, l₃, heq⟩ := exists_dup_split p hnd
      subst heq
      obtain ⟨hhead, hlast, hcost⟩ := hw
      have hq_head : (l₁ ++ x :: l₃).head? = (l₁ ++ x :: (l₂ ++ x :: l₃)).head? := by
        rw [head?_append_cons, head?_append_cons]
      have hq_last : (l₁ ++ x :: l₃).getLast? =
          (l₁ ++ x :: (l₂ ++ x :: l₃)).getLast? := by
        rw [getLast?_append_cons, getLast?_append_cons]
        have e1 : (x :: (l₂ ++ x :: l₃)) = (x :: l₂) ++ x :: l₃ := by simp
        rw [e1, getLast?_append_cons]
      have hcost_p : pathCost A (l₁ ++ x :: (l₂ ++ x :: l₃)) =
          pathCost A (l₁ ++ [x]) +
            (pathCost A ((x :: l₂) ++ [x]) + pathCost A (x :: l₃)) := by
        rw [pathCost_split A l₁ x (l₂ ++ x :: l₃)]
        congr 1
        have e1 : (x :: (l₂ ++ x :: l₃)) = (x :: l₂) ++ x :: l₃ := by simp
        rw [e1, pathCost_split A (x :: l₂) x l₃]
      have hcost_q : pathCost A (l₁ ++ x :: l₃) =
          pathCost A (l₁ ++ [x]) + pathCost A (x :: l₃) :=
        pathCost_split A l₁ x l₃
      have hle : pathCost A (l₁ ++ x :: l₃) ≤
          pathCost A (l₁ ++ x :: (l₂ ++ x :: l₃)) := by
        rw [hcost_p, hcost_q]
        apply add_le_add_left
        calc pathCost A (x :: l₃) = 0 + pathCost A (x :: l₃) := (zero_add _).symm
          _ ≤ pathCost A ((x :: l₂) ++ [x]) + pathCost A (x :: l₃) :=
            add_le_add_right (pathCost_nonneg Hnn _) _
      have hw_q : Walk A s t (l₁ ++ x :: l₃) :=
        ⟨hq_head ▸ hhead, hq_last ▸ hlast, ne_top_of_le_ne_top hcost hle⟩
      have hlen_q : (l₁ ++ x :: l₃).length ≤ N := by
        rw [List.length_append] at hlen ⊢
        simp only [List.length_cons, List.length_append] at hlen ⊢
        omega
      obtain ⟨q, hsp, hqle⟩ := ih (l₁ ++ x :: l₃) hlen_q hw_q
      exact ⟨q, hsp, hqle.trans hle⟩

namespace Dijkstra

/-- The mutable state of `Dijkstra.find_shortest_path`: tentative
`distances`, `previous` predecessors, the `visited` set, and the heap `pq`
(as a multiset of `(distance, vertex)` entries in insertion order). -/
structure DState (n : ℕ) where
  dist : Fin n → W
  prev : Fin n → Option (Fin n)
  visited : Finset (Fin n)
  pq : List (W × Fin n)

/-- The `heapq` comparison on `(distance, node)` tuples: lexicographic. -/
def keyLE {n : ℕ} (a b : W × Fin n) : Prop :=
  a.1 < b.1 ∨ (a.1 = b.1 ∧ a.2 ≤ b.2)

instance {n : ℕ} (a b : W × Fin n) : Decidable (keyLE a b) := by
  unfold keyLE; infer_instance

/-- The least `(distance, node)` entry of the heap (leftmost among exact
duplicates — duplicates are interchangeable for `heapq`). -/
def listMin {n : ℕ} : List (W × Fin n) → Option (W × Fin n)
  | [] => none
  | e :: rest =>
    match listMin rest with
    | none => some e
    | some m => if keyLE e m then some e else some m

/-- Remove the first occurrence of an entry. -/
def removeFirst {n : ℕ} : List (W × Fin n) → (W × Fin n) → List (W × Fin n)
  | [], _ => []
  | e :: rest, m => if e = m then rest else e :: removeFirst rest m

/-- `heapq.heappop`: remove and return the least entry. -/
def popMin {n : ℕ} (pq : List (W × Fin n)) :
    Option ((W × Fin n) × List (W × Fin n)) :=
  match listMin pq with
  | none => none
  | some m => some (m, removeFirst pq m)

theorem keyLE_refl {n : ℕ} (a : W × Fin n) : keyLE a a := Or.inr ⟨rfl, le_refl _⟩

theorem keyLE_total {n : ℕ} (a b : W × Fin n) : keyLE a b ∨ keyLE b a := by
  unfold keyLE
  rcases lt_trichotomy a.1 b.1 with h | h | h
  · exact Or.inl (Or.inl h)
  · rcases le_total a.2 b.2 with h2 | h2
    · exact Or.inl (Or.inr ⟨h, h2⟩)
    · exact Or.inr (Or.inr ⟨h.symm, h2⟩)
  · exact Or.inr (Or.inl h)

theorem keyLE_trans {n : ℕ} {a b c : W × Fin n} (h1 : keyLE a b)
    (h2 : keyLE b c) : keyLE a c := by
  rcases h1 with h1 | ⟨h1, h1'⟩ <;> rcases h2 with h2 | ⟨h2, h2'⟩
  · exact Or.inl (h1.trans h2)
  · exact Or.inl (h2 ▸ h1)
  · exact Or.inl (h1 ▸ h2)
  · exact Or.inr ⟨h1.trans h2, h1'.trans h2'⟩

theorem listMin_mem {n : ℕ} : ∀ {pq : List (W × Fin n)} {m : W × Fin n},
    listMin pq = some m → m ∈ pq := by
  intro pq
  induction pq with
  | nil => intro m h; cases h
  | cons e rest ih =>
    intro m h
    rw [listMin] at h
    cases hrest : listMin rest with
    | none =>
      rw [hrest] at h
      dsimp only at h
      cases h
      exact List.mem_cons_self _ _
    | some m' =>
      rw [hrest] at h
      dsimp only at h
      by_cases hle : keyLE e m'
      · rw [if_pos hle] at h
        cases h
        exact List.mem_cons_self _ _
      · rw [if_neg hle] at h
        cases h
        exact List.mem_cons_of_mem _ (ih hrest)

theorem listMin_none_iff {n : ℕ} {pq : List (W × Fin n)} :
    listMin pq = none ↔ pq = [] := by
  cases pq with
  | nil => simp [listMin]
  | cons e rest =>
    rw [listMin]
    constructor
    · intro h
      exfalso
      cases hrest : listMin rest with
      | none =>
        rw [hrest] at h
        dsimp only at h
        cases h
      | some m =>
        rw [hrest] at h
        dsimp only at h
        split at h <;> cases h
    · intro h; cases h

theorem listMin_le {n : ℕ} : ∀ {pq : List (W × Fin n)} {m : W × Fin n},
    listMin pq = some m → ∀ e ∈ pq, keyLE m e := by
  intro pq
  induction pq with
  | nil => intro m h; cases h
  | cons e rest ih =>
    intro m h e' he'
    rw [listMin] at h
    cases hrest : listMin rest with
    | none =>
      rw [hrest] at h
      dsimp only at h
      cases h
      have hnil : rest = [] := listMin_none_iff.mp hrest
      subst hnil
      rcases List.mem_cons.mp he' with rfl | hmem
      · exact keyLE_refl _
      · cases hmem
    | some m' =>
      rw [hrest] at h
      dsimp only at h
      by_cases hle : keyLE e m'
      · rw [if_pos hle] at h
        cases h
        rcases List.mem_cons.mp he' with rfl | hmem
        · exact keyLE_refl _
        · exact keyLE_trans hle (ih hrest e' hmem)
      · rw [if_neg hle] at h
        cases h
        rcases List.mem_cons.mp he' with rfl | hmem
        · rcases keyLE_total m e' with h | h
          · exact h
          · exact absurd h hle
        · exact ih hrest e' hmem

theorem popMin_none_iff {n : ℕ} {pq : List (W × Fin n)} :
    popMin pq = none ↔ pq = [] := by
  unfold popMin
  cases h : listMin pq with
  | none => simpa using listMin_none_iff.mp h
  | some m =>
    dsimp only
    constructor
    · intro h'; cases h'
    · intro h'
      rw [h'] at h
      cases h

theorem removeFirst_perm {n : ℕ} :
    ∀ (l : List (W × Fin n)) (m : W × Fin n), m ∈ l →
      l.Perm (m :: removeFirst l m) := by
  intro l
  induction l with
  | nil => intro m h; cases h
  | cons e rest ih =>
    intro m hm
    rw [removeFirst]
    by_cases he : e = m
    · subst he
      rw [if_pos rfl]
    · rw [if_neg he]
      have hmr : m ∈ rest := by
        rcases List.mem_cons.mp hm with h | h
        · exact absurd h.symm he
        · exact h
      exact ((ih m hmr).cons e).trans (List.Perm.swap m e _)

theorem popMin_spec {n : ℕ} {pq : List (W × Fin n)}
    {m : W × Fin n} {rest : List (W × Fin n)}
    (h : popMin pq = some (m, rest)) :
    m ∈ pq ∧ pq.Perm (m :: rest) ∧
      (∀ e ∈ pq, m.1 ≤ e.1) ∧ rest.length + 1 = pq.length := by
  unfold popMin at h
  cases hmin : listMin pq with
  | none => rw [hmin] at h; cases h
  | some m' =>
    rw [hmin] at h
    dsimp only at h
    have hpair := Option.some_inj.mp h
    obtain ⟨rfl, rfl⟩ : m' = m ∧ removeFirst pq m' = rest :=
      ⟨congrArg Prod.fst hpair, congrArg Prod.snd hpair⟩
    have hmem := listMin_mem hmin
    have hperm := removeFirst_perm pq m' hmem
    refine ⟨hmem, hperm, ?_, ?_⟩
    · intro e he
      rcases listMin_le hmin e he with h | ⟨h, _⟩
      · exact le_of_lt h
      · exact le_of_eq h
    · have := hperm.length_eq
      rw [List.length_cons] at this
      omega

end Dijkstra

namespace Dijkstra

/-- One neighbor-relaxation step of the inner `for neighbor in range(...)`
loop: skip visited vertices, skip `inf` entries, and on strict improvement
update `distances`/`previous` and push onto the heap.  `u` is the popped
vertex and `d` its popped key `current_dist`. -/
def relaxOne {n : ℕ} (A : Fin n → Fin n → W) (u : Fin n) (d : W)
    (st : DState n) (nb : Fin n) : DState n :=
  if nb ∈ st.visited then st
  else if A u nb = ⊤ then st
  else if d + A u nb < st.dist nb then
    { st with dist := Function.update st.dist nb (d + A u nb),
              prev := Function.update st.prev nb (some u),
              pq := st.pq ++ [(d + A u nb, nb)] }
  else st

/-- The whole neighbor scan `for neighbor in range(self.num_nodes)`. -/
def relaxAll {n : ℕ} (A : Fin n → Fin n → W) (u : Fin n) (d : W)
    (st : DState n) : DState n :=
  (List.finRange n).foldl (relaxOne A u d) st

theorem relaxOne_visited {n : ℕ} (A : Fin n → Fin n → W) (u : Fin n) (d : W)
    (st : DState n) (nb : Fin n) : (relaxOne A u d st nb).visited = st.visited := by
  unfold relaxOne
  split_ifs <;> rfl

theorem relaxFold_visited {n : ℕ} (A : Fin n → Fin n → W) (u : Fin n) (d : W) :
    ∀ (l : List (Fin n)) (st : DState n),
      (l.foldl (relaxOne A u d) st).visited = st.visited := by
  intro l
  induction l with
  | nil => intro st; rfl
  | cons nb rest ih =>
    intro st
    rw [List.foldl_cons, ih, relaxOne_visited]

theorem relaxAll_visited {n : ℕ} (A : Fin n → Fin n → W) (u : Fin n) (d : W)
    (st : DState n) : (relaxAll A u d st).visited = st.visited :=
  relaxFold_visited A u d _ st

/-- The main `while pq:` loop of the solver, parameterised by the optional
early-exit target (`some end_idx` for `find_shortest_path`, `none` for
`find_all_shortest_paths`, whose loop body is identical except for the
early-exit block). -/
def dijkstraLoop {n : ℕ} (A : Fin n → Fin n → W) (stop? : Option (Fin n))
    (st : DState n) : DState n :=
  match hpop : popMin st.pq with
  | none => st
  | some ((d, u), rest) =>
    if hu : u ∈ st.visited then
      dijkstraLoop A stop? { st with pq := rest }
    else
      let st1 : DState n :=
        { dist := st.dist, prev := st.prev,
          visited := insert u st.visited, pq := rest }
      if stop? = some u then st1
      else dijkstraLoop A stop? (relaxAll A u d st1)
termination_by ((n + 1) - st.visited.card, st.pq.length)
decreasing_by
  · apply Prod.Lex.right
    have hlen := (popMin_spec hpop).2.2.2
    omega
  · apply Prod.Lex.left
    rw [relaxAll_visited]
    have hcard : (insert u st.visited).card = st.visited.card + 1 :=
      Finset.card_insert_of_not_mem hu
    have hle : st.visited.card ≤ n := by
      have := Finset.card_le_univ st.visited
      simpa using this
    simp only [hcard]
    omega

/-- The initial solver state: `distances = [inf]*n` with `0` at the start,
`previous = [None]*n`, empty visited set, heap seeded `[(0, start)]`. -/
def initState {n : ℕ} (s : Fin n) : DState n :=
  { dist := Function.update (fun _ => (⊤ : W)) s 0,
    prev := fun _ => none,
    visited := ∅,
    pq := [(0, s)] }

/-- The `while current is not None` predecessor chase of
`_reconstruct_path`, with fuel `n` standing in for the unbounded Python
loop (the predecessor chain provably never exceeds `n` vertices). -/
def prevChase {n : ℕ} (prev : Fin n → Option (Fin n)) :
    ℕ → Fin n → List (Fin n)
  | 0, c => [c]
  | k + 1, c =>
    match prev c with
    | none => [c]
    | some u => c :: prevChase prev k u

/-- `Dijkstra._reconstruct_path` from `src/algorithms/dijkstra.py` (vertex
indices instead of node-id strings; the caller maps them through
`idx_to_node`). -/
def reconstruct_path {n : ℕ} (prev : Fin n → Option (Fin n))
    (s t : Fin n) : List (Fin n) :=
  if prev t = none ∧ s ≠ t then []
  else (prevChase prev n t).reverse

/-- `Dijkstra.find_shortest_path` from `src/algorithms/dijkstra.py`
(wall-clock timing dropped): returns the reconstructed path and
`distances[end_idx]`. -/
def find_shortest_path {n : ℕ} (A : Fin n → Fin n → W) (s t : Fin n) :
    List (Fin n) × W :=
  let stf := dijkstraLoop A (some t) (initState s)
  (reconstruct_path stf.prev s t, stf.dist t)

/-- `Dijkstra.find_all_shortest_paths` from `src/algorithms/dijkstra.py`:
the same loop without the early exit, then one `(path, distance)` result
per vertex other than the start. -/
def find_all_shortest_paths {n : ℕ} (A : Fin n → Fin n → W) (s : Fin n) :
    Fin n → Option (List (Fin n) × W) :=
  let stf := dijkstraLoop A none (initState s)
  fun v =>
    if v = s then none
    else some (reconstruct_path stf.prev s v, stf.dist v)

end Dijkstra

namespace Dijkstra

/-- The relaxation guard: unvisited neighbor, finite edge, strict
improvement. -/
def relaxCond {n : ℕ} (A : Fin n → Fin n → W) (u : Fin n) (d : W)
    (st : DState n) (v : Fin n) : Prop :=
  v ∉ st.visited ∧ A u v ≠ ⊤ ∧ d + A u v < st.dist v

instance {n : ℕ} (A : Fin n → Fin n → W) (u : Fin n) (d : W)
    (st : DState n) (v : Fin n) : Decidable (relaxCond A u d st v) := by
  unfold relaxCond
  infer_instance

theorem relaxOne_dist {n : ℕ} (A : Fin n → Fin n → W) (u : Fin n) (d : W)
    (st : DState n) (nb v : Fin n) :
    (relaxOne A u d st nb).dist v =
      if v = nb ∧ relaxCond A u d st nb then d + A u nb else st.dist v := by
  unfold relaxOne relaxCond
  by_cases h1 : nb ∈ st.visited
  · rw [if_pos h1, if_neg (fun h => h.2.1 h1)]
  · rw [if_neg h1]
    by_cases h2 : A u nb = ⊤
    · rw [if_pos h2, if_neg (fun h => h.2.2.1 h2)]
    · rw [if_neg h2]
      by_cases h3 : d + A u nb < st.dist nb
      · rw [if_pos h3]
        dsimp only
        by_cases hv : v = nb
        · subst hv
          rw [if_pos ⟨rfl, h1, h2, h3⟩, Function.update_same]
        · rw [if_neg (fun h => hv h.1), Function.update_noteq hv]
      · rw [if_neg h3, if_neg (fun h => h3 h.2.2.2)]

theorem relaxOne_prev {n : ℕ} (A : Fin n → Fin n → W) (u : Fin n) (d : W)
    (st : DState n) (nb v : Fin n) :
    (relaxOne A u d st nb).prev v =
      if v = nb ∧ relaxCond A u d st nb then some u else st.prev v := by
  unfold relaxOne relaxCond
  by_cases h1 : nb ∈ st.visited
  · rw [if_pos h1, if_neg (fun h => h.2.1 h1)]
  · rw [if_neg h1]
    by_cases h2 : A u nb = ⊤
    · rw [if_pos h2, if_neg (fun h => h.2.2.1 h2)]
    · rw [if_neg h2]
      by_cases h3 : d + A u nb < st.dist nb
      · rw [if_pos h3]
        dsimp only
        by_cases hv : v = nb
        · subst hv
          rw [if_pos ⟨rfl, h1, h2, h3⟩, Function.update_same]
        · rw [if_neg (fun h => hv h.1), Function.update_noteq hv]
      · rw [if_neg h3, if_neg (fun h => h3 h.2.2.2)]

theorem relaxOne_pq {n : ℕ} (A : Fin n → Fin n → W) (u : Fin n) (d : W)
    (st : DState n) (nb : Fin n) :
    (relaxOne A u d st nb).pq =
      if relaxCond A u d st nb then st.pq ++ [(d + A u nb, nb)] else st.pq := by
  unfold relaxOne relaxCond
  by_cases h1 : nb ∈ st.visited
  · rw [if_pos h1, if_neg (fun h => h.1 h1)]
  · rw [if_neg h1]
    by_cases h2 : A u nb = ⊤
    · rw [if_pos h2, if_neg (fun h => h.2.1 h2)]
    · rw [if_neg h2]
      by_cases h3 : d + A u nb < st.dist nb
      · rw [if_pos h3, if_pos ⟨h1, h2, h3⟩]
      · rw [if_neg h3, if_neg (fun h => h3 h.2.2)]

theorem relaxCond_of_untouched {n : ℕ} (A : Fin n → Fin n → W) (u : Fin n)
    (d : W) (st : DState n) (nb v : Fin n) (hv : v ≠ nb) :
    relaxCond A u d (relaxOne A u d st nb) v ↔ relaxCond A u d st v := by
  unfold relaxCond
  rw [relaxOne_visited, relaxOne_dist]
  rw [if_neg (fun h => hv h.1)]

theorem relaxFold_dist {n : ℕ} (A : Fin n → Fin n → W) (u : Fin n) (d : W) :
    ∀ (l : List (Fin n)), l.Nodup → ∀ (st : DState n) (v : Fin n),
      (l.foldl (relaxOne A u d) st).dist v =
        if v ∈ l ∧ relaxCond A u d st v then d + A u v else st.dist v := by
  intro l
  induction l with
  | nil =>
    intro _ st v
    rw [List.foldl_nil, if_neg (fun h => absurd h.1 (List.not_mem_nil v))]
  | cons nb rest ih =>
    intro hnd st v
    obtain ⟨hnb, hrest⟩ := List.nodup_cons.mp hnd
    rw [List.foldl_cons, ih hrest _ v]
    by_cases hv : v = nb
    · subst hv
      have hmem : ¬ v ∈ rest := hnb
      rw [if_neg (fun h => hmem h.1), relaxOne_dist]
      by_cases hc : relaxCond A u d st v
      · rw [if_pos ⟨rfl, hc⟩, if_pos ⟨List.mem_cons_self v rest, hc⟩]
      · rw [if_neg (fun h => hc h.2), if_neg (fun h => hc h.2)]
    · simp only [relaxCond_of_untouched A u d st nb v hv]
      rw [relaxOne_dist,
        if_neg (show ¬(v = nb ∧ relaxCond A u d st nb) from fun h => hv h.1)]
      by_cases hmem : v ∈ rest
      · by_cases hc : relaxCond A u d st v
        · rw [if_pos ⟨hmem, hc⟩, if_pos ⟨List.mem_cons_of_mem nb hmem, hc⟩]
        · rw [if_neg (fun h => hc h.2), if_neg (fun h => hc h.2)]
      · rw [if_neg (fun h => hmem h.1)]
        have : ¬ (v ∈ nb :: rest ∧ relaxCond A u d st v) := by
          rintro ⟨h, _⟩
          rcases List.mem_cons.mp h with h | h
          · exact hv h
          · exact hmem h
        rw [if_neg this]

theorem relaxFold_prev {n : ℕ} (A : Fin n → Fin n → W) (u : Fin n) (d : W) :
    ∀ (l : List (Fin n)), l.Nodup → ∀ (st : DState n) (v : Fin n),
      (l.foldl (relaxOne A u d) st).prev v =
        if v ∈ l ∧ relaxCond A u d st v then some u else st.prev v := by
  intro l
  induction l with
  | nil =>
    intro _ st v
    rw [List.foldl_nil, if_neg (fun h => absurd h.1 (List.not_mem_nil v))]
  | cons nb rest ih =>
    intro hnd st v
    obtain ⟨hnb, hrest⟩ := List.nodup_cons.mp hnd
    rw [List.foldl_cons, ih hrest _ v]
    by_cases hv : v = nb
    · subst hv
      have hmem : ¬ v ∈ rest := hnb
      rw [if_neg (fun h => hmem h.1), relaxOne_prev]
      by_cases hc : relaxCond A u d st v
      · rw [if_pos ⟨rfl, hc⟩, if_pos ⟨List.mem_cons_self v rest, hc⟩]
      · rw [if_neg (fun h => hc h.2), if_neg (fun h => hc h.2)]
    · simp only [relaxCond_of_untouched A u d st nb v hv]
      rw [relaxOne_prev,
        if_neg (show ¬(v = nb ∧ relaxCond A u d st nb) from fun h => hv h.1)]
      by_cases hmem : v ∈ rest
      · by_cases hc : relaxCond A u d st v
        · rw [if_pos ⟨hmem, hc⟩, if_pos ⟨List.mem_cons_of_mem nb hmem, hc⟩]
        · rw [if_neg (fun h => hc h.2), if_neg (fun h => hc h.2)]
      · rw [if_neg (fun h => hmem h.1)]
        have : ¬ (v ∈ nb :: rest ∧ relaxCond A u d st v) := by
          rintro ⟨h, _⟩
          rcases List.mem_cons.mp h with h | h
          · exact hv h
          · exact hmem h
        rw [if_neg this]

theorem relaxFold_pq_mem {n : ℕ} (A : Fin n → Fin n → W) (u : Fin n) (d : W) :
    ∀ (l : List (Fin n)), l.Nodup → ∀ (st : DState n) (e : W × Fin n),
      (e ∈ (l.foldl (relaxOne A u d) st).pq ↔
        e ∈ st.pq ∨ ∃ v, v ∈ l ∧ relaxCond A u d st v ∧ e = (d + A u v, v)) := by
  intro l
  induction l with
  | nil =>
    intro _ st e
    rw [List.foldl_nil]
    simp
  | cons nb rest ih =>
    intro hnd st e
    obtain ⟨hnb, hrest⟩ := List.nodup_cons.mp hnd
    rw [List.foldl_cons, ih hrest]
    constructor
    · rintro (hmem | ⟨v, hvl, hc, rfl⟩)
      · rw [relaxOne_pq] at hmem
        by_cases hc : relaxCond A u d st nb
        · rw [if_pos hc] at hmem
          rcases List.mem_append.mp hmem with h | h
          · exact Or.inl h
          · right
            exact ⟨nb, List.mem_cons_self nb rest, hc,
              (List.mem_singleton.mp h)⟩
        · rw [if_neg hc] at hmem
          exact Or.inl hmem
      · have hv : v ≠ nb := fun h => hnb (h ▸ hvl)
        right
        exact ⟨v, List.mem_cons_of_mem nb hvl,
          (relaxCond_of_untouched A u d st nb v hv).mp hc, rfl⟩
    · rintro (hmem | ⟨v, hvl, hc, rfl⟩)
      · left
        rw [relaxOne_pq]
        by_cases hc : relaxCond A u d st nb
        · rw [if_pos hc]
          exact List.mem_append_left _ hmem
        · rw [if_neg hc]
          exact hmem
      · rcases List.mem_cons.mp hvl with rfl | hvrest
        · left
          rw [relaxOne_pq, if_pos hc]
          exact List.mem_append_right _ (List.mem_singleton.mpr rfl)
        · have hv : v ≠ nb := fun h => hnb (h ▸ hvrest)
          right
          exact ⟨v, hvrest,
            (relaxCond_of_untouched A u d st nb v hv).mpr hc, rfl⟩

theorem relaxAll_dist {n : ℕ} (A : Fin n → Fin n → W) (u : Fin n) (d : W)
    (st : DState n) (v : Fin n) :
    (relaxAll A u d st).dist v =
      if relaxCond A u d st v then d + A u v else st.dist v := by
  unfold relaxAll
  rw [relaxFold_dist A u d (List.finRange n) (List.nodup_finRange n) st v]
  by_cases hc : relaxCond A u d st v
  · rw [if_pos ⟨List.mem_finRange v, hc⟩, if_pos hc]
  · rw [if_neg (fun h => hc h.2), if_neg hc]

theorem relaxAll_prev {n : ℕ} (A : Fin n → Fin n → W) (u : Fin n) (d : W)
    (st : DState n) (v : Fin n) :
    (relaxAll A u d st).prev v =
      if relaxCond A u d st v then some u else st.prev v := by
  unfold relaxAll
  rw [relaxFold_prev A u d (List.finRange n) (List.nodup_finRange n) st v]
  by_cases hc : relaxCond A u d st v
  · rw [if_pos ⟨List.mem_finRange v, hc⟩, if_pos hc]
  · rw [if_neg (fun h => hc h.2), if_neg hc]

theorem relaxAll_pq_mem {n : ℕ} (A : Fin n → Fin n → W) (u : Fin n) (d : W)
    (st : DState n) (e : W × Fin n) :
    e ∈ (relaxAll A u d st).pq ↔
      e ∈ st.pq ∨ ∃ v, relaxCond A u d st v ∧ e = (d + A u v, v) := by
  unfold relaxAll
  rw [relaxFold_pq_mem A u d (List.finRange n) (List.nodup_finRange n) st e]
  constructor
  · rintro (h | ⟨v, _, hc, rfl⟩)
    · exact Or.inl h
    · exact Or.inr ⟨v, hc, rfl⟩
  · rintro (h | ⟨v, hc, rfl⟩)
    · exact Or.inl h
    · exact Or.inr ⟨v, List.mem_finRange v, hc, rfl⟩

theorem relaxAll_dist_le {n : ℕ} (A : Fin n → Fin n → W) (u : Fin n) (d : W)
    (st : DState n) (v : Fin n) :
    (relaxAll A u d st).dist v ≤ st.dist v := by
  rw [relaxAll_dist]
  by_cases hc : relaxCond A u d st v
  · rw [if_pos hc]
    exact le_of_lt hc.2.2
  · rw [if_neg hc]

end Dijkstra

namespace Dijkstra

theorem dijkstraLoop_none {n : ℕ} (A : Fin n → Fin n → W)
    (stop? : Option (Fin n)) (st : DState n)
    (hpop : popMin st.pq = none) : dijkstraLoop A stop? st = st := by
  unfold dijkstraLoop
  rw [hpop]

theorem dijkstraLoop_skip {n : ℕ} (A : Fin n → Fin n → W)
    (stop? : Option (Fin n)) (st : DState n) (d : W) (u : Fin n)
    (rest : List (W × Fin n))
    (hpop : popMin st.pq = some ((d, u), rest)) (hu : u ∈ st.visited) :
    dijkstraLoop A stop? st = dijkstraLoop A stop? { st with pq := rest } := by
  conv_lhs => rw [dijkstraLoop]
  split
  · rename_i heq
    rw [hpop] at heq
    cases heq
  · rename_i d' u' rest' heq
    rw [hpop] at heq
    injection heq with h1
    obtain ⟨h2, h3⟩ := Prod.mk.injEq _ _ _ _ ▸ h1
    obtain ⟨hd, hu'⟩ := Prod.mk.injEq _ _ _ _ ▸ h2
    subst hd
    subst hu'
    subst h3
    rw [dif_pos hu]

theorem dijkstraLoop_stop {n : ℕ} (A : Fin n → Fin n → W)
    (stop? : Option (Fin n)) (st : DState n) (d : W) (u : Fin n)
    (rest : List (W × Fin n))
    (hpop : popMin st.pq = some ((d, u), rest)) (hu : u ∉ st.visited)
    (hstop : stop? = some u) :
    dijkstraLoop A stop? st =
      { dist := st.dist, prev := st.prev,
        visited := insert u st.visited, pq := rest } := by
  conv_lhs => rw [dijkstraLoop]
  split
  · rename_i heq
    rw [hpop] at heq
    cases heq
  · rename_i d' u' rest' heq
    rw [hpop] at heq
    injection heq with h1
    obtain ⟨h2, h3⟩ := Prod.mk.injEq _ _ _ _ ▸ h1
    obtain ⟨hd, hu'⟩ := Prod.mk.injEq _ _ _ _ ▸ h2
    subst hd
    subst hu'
    subst h3
    rw [dif_neg hu, if_pos hstop]

theorem dijkstraLoop_relax {n : ℕ} (A : Fin n → Fin n → W)
    (stop? : Option (Fin n)) (st : DState n) (d : W) (u : Fin n)
    (rest : List (W × Fin n))
    (hpop : popMin st.pq = some ((d, u), rest)) (hu : u ∉ st.visited)
    (hstop : ¬ stop? = some u) :
    dijkstraLoop A stop? st =
      dijkstraLoop A stop?
        (relaxAll A u d
          { dist := st.dist, prev := st.prev,
            visited := insert u st.visited, pq := rest }) := by
  conv_lhs => rw [dijkstraLoop]
  split
  · rename_i heq
    rw [hpop] at heq
    cases heq
  · rename_i d' u' rest' heq
    rw [hpop] at heq
    injection heq with h1
    obtain ⟨h2, h3⟩ := Prod.mk.injEq _ _ _ _ ▸ h1
    obtain ⟨hd, hu'⟩ := Prod.mk.injEq _ _ _ _ ▸ h2
    subst hd
    subst hu'
    subst h3
    rw [dif_neg hu, if_neg hstop]

/-- Structural loop invariant — holds with no assumptions on the weights. -/
structure SInv {n : ℕ} (A : Fin n → Fin n → W) (s : Fin n)
    (st : DState n) : Prop where
  keys_walk : ∀ d v, (d, v) ∈ st.pq → ∃ p, Walk A s v p ∧ pathCost A p = d
  dist_walk : ∀ v, st.dist v ≠ ⊤ → ∃ p, Walk A s v p ∧ pathCost A p = st.dist v
  dist_le_keys : ∀ d v, (d, v) ∈ st.pq → st.dist v ≤ d
  unvisited_in_pq : ∀ v, v ∉ st.visited → st.dist v ≠ ⊤ → (st.dist v, v) ∈ st.pq
  prev_spec : ∀ v u, st.prev v = some u →
    u ∈ st.visited ∧ u ≠ v ∧ A u v ≠ ⊤ ∧ st.dist u ≠ ⊤ ∧
      st.dist v = st.dist u + A u v
  prev_none : ∀ v, v ≠ s → st.dist v ≠ ⊤ → st.prev v ≠ none
  visited_dist : ∀ u ∈ st.visited, st.dist u ≠ ⊤
  dist_s : st.dist s ≠ ⊤

/-- Nonnegativity-dependent invariant. -/
structure NInv {n : ℕ} (A : Fin n → Fin n → W) (s : Fin n)
    (st : DState n) : Prop where
  dist_nonneg : ∀ v, 0 ≤ st.dist v
  prev_s : st.prev s = none
  dist_s_zero : st.dist s = 0

/-- Every settled vertex's tentative distance lower-bounds every walk cost. -/
def Settled {n : ℕ} (A : Fin n → Fin n → W) (s : Fin n)
    (st : DState n) : Prop :=
  ∀ u ∈ st.visited, ∀ p, Walk A s u p → st.dist u ≤ pathCost A p

/-- Distance consistency along segments whose interior is settled. -/
def FrontierBound {n : ℕ} (A : Fin n → Fin n → W) (st : DState n) : Prop :=
  ∀ (y v : Fin n) (r : List (Fin n)), r.head? = some y →
    r.getLast? = some v → pathCost A r ≠ ⊤ →
    (∀ x ∈ r.dropLast, x ∈ st.visited) →
    st.dist v ≤ st.dist y + pathCost A r

end Dijkstra

theorem walk_extend {n : ℕ} {A : Fin n → Fin n → W} {s u : Fin n}
    {p : List (Fin n)} (hw : Walk A s u p) {v : Fin n} (hA : A u v ≠ ⊤) :
    Walk A s v (p ++ [v]) ∧ pathCost A (p ++ [v]) = pathCost A p + A u v := by
  obtain ⟨hh, hl, hc⟩ := hw
  have hcost := pathCost_concat A p u v hl
  refine ⟨⟨?_, ?_, ?_⟩, hcost⟩
  · cases p with
    | nil => cases hh
    | cons a t => exact hh
  · rw [List.getLast?_concat]
  · rw [hcost]
    exact WithTop.add_ne_top.mpr ⟨hc, hA⟩

namespace Dijkstra

theorem popped_facts {n : ℕ} {A : Fin n → Fin n → W} {s : Fin n}
    {st : DState n} (hS : SInv A s st) {d : W} {u : Fin n}
    {rest : List (W × Fin n)}
    (hpop : popMin st.pq = some ((d, u), rest)) (hu : u ∉ st.visited) :
    d = st.dist u ∧ d ≠ ⊤ ∧ ∃ p, Walk A s u p ∧ pathCost A p = d := by
  obtain ⟨hmem, hperm, hmin, hlen⟩ := popMin_spec hpop
  obtain ⟨p, hw, hc⟩ := hS.keys_walk d u hmem
  have hdne : d ≠ ⊤ := hc ▸ hw.2.2
  have hdistle : st.dist u ≤ d := hS.dist_le_keys d u hmem
  have hdistne : st.dist u ≠ ⊤ := ne_top_of_le_ne_top hdne hdistle
  have hin : (st.dist u, u) ∈ st.pq := hS.unvisited_in_pq u hu hdistne
  have hge : d ≤ st.dist u := hmin (st.dist u, u) hin
  exact ⟨le_antisymm hge hdistle, hdne, p, hw, hc⟩

theorem pq_mem_cases {n : ℕ} {st : DState n} {d : W} {u : Fin n}
    {rest : List (W × Fin n)}
    (hpop : popMin st.pq = some ((d, u), rest)) :
    ∀ e ∈ st.pq, e = (d, u) ∨ e ∈ rest := by
  intro e he
  have hperm := (popMin_spec hpop).2.1
  rcases List.mem_cons.mp (hperm.mem_iff.mp he) with h | h
  · exact Or.inl h
  · exact Or.inr h

theorem rest_subset_pq {n : ℕ} {st : DState n} {d : W} {u : Fin n}
    {rest : List (W × Fin n)}
    (hpop : popMin st.pq = some ((d, u), rest)) :
    ∀ e ∈ rest, e ∈ st.pq := by
  intro e he
  have hperm := (popMin_spec hpop).2.1
  exact hperm.mem_iff.mpr (List.mem_cons_of_mem _ he)

theorem SInv_skip {n : ℕ} {A : Fin n → Fin n → W} {s : Fin n}
    {st : DState n} (hS : SInv A s st) {d : W} {u : Fin n}
    {rest : List (W × Fin n)}
    (hpop : popMin st.pq = some ((d, u), rest)) (hu : u ∈ st.visited) :
    SInv A s { st with pq := rest } := by
  refine ⟨?_, hS.dist_walk, ?_, ?_, hS.prev_spec, hS.prev_none,
    hS.visited_dist, hS.dist_s⟩
  · intro d' v hmem
    exact hS.keys_walk d' v (rest_subset_pq hpop _ hmem)
  · intro d' v hmem
    exact hS.dist_le_keys d' v (rest_subset_pq hpop _ hmem)
  · intro v hv hne
    have hin : (st.dist v, v) ∈ st.pq := hS.unvisited_in_pq v hv hne
    rcases pq_mem_cases hpop _ hin with heq | hmem
    · exfalso
      have : v = u := congrArg Prod.snd heq
      exact hv (this ▸ hu)
    · exact hmem

theorem SInv_visit {n : ℕ} {A : Fin n → Fin n → W} {s : Fin n}
    {st : DState n} (hS : SInv A s st) {d : W} {u : Fin n}
    {rest : List (W × Fin n)}
    (hpop : popMin st.pq = some ((d, u), rest)) (hu : u ∉ st.visited) :
    SInv A s { dist := st.dist, prev := st.prev,
               visited := insert u st.visited, pq := rest } := by
  obtain ⟨hdu, hdne, _⟩ := popped_facts hS hpop hu
  refine ⟨?_, hS.dist_walk, ?_, ?_, ?_, hS.prev_none, ?_, hS.dist_s⟩
  · intro d' v hmem
    exact hS.keys_walk d' v (rest_subset_pq hpop _ hmem)
  · intro d' v hmem
    exact hS.dist_le_keys d' v (rest_subset_pq hpop _ hmem)
  · intro v hv hne
    have hvu : v ≠ u := by
      intro h
      exact hv (h ▸ Finset.mem_insert_self u st.visited)
    have hvold : v ∉ st.visited := fun h =>
      hv (Finset.mem_insert_of_mem h)
    have hin : (st.dist v, v) ∈ st.pq := hS.unvisited_in_pq v hvold hne
    rcases pq_mem_cases hpop _ hin with heq | hmem
    · exact absurd (congrArg Prod.snd heq) hvu
    · exact hmem
  · intro v u' hprev
    obtain ⟨h1, h2, h3, h4, h5⟩ := hS.prev_spec v u' hprev
    exact ⟨Finset.mem_insert_of_mem h1, h2, h3, h4, h5⟩
  · intro w hw
    rcases Finset.mem_insert.mp hw with rfl | hmem
    · exact hdu ▸ hdne
    · exact hS.visited_dist w hmem

theorem Settled_visit {n : ℕ} {A : Fin n → Fin n → W} {s : Fin n}
    (Hnn : NonnegW A) {st : DState n} (hS : SInv A s st) (hN : NInv A s st)
    (hSet : Settled A s st) (hF : FrontierBound A st) {d : W} {u : Fin n}
    {rest : List (W × Fin n)}
    (hpop : popMin st.pq = some ((d, u), rest)) (hu : u ∉ st.visited) :
    Settled A s { dist := st.dist, prev := st.prev,
                  visited := insert u st.visited, pq := rest } := by
  obtain ⟨hdu, hdne, _⟩ := popped_facts hS hpop hu
  have hmin := (popMin_spec hpop).2.2.1
  intro w hw p hwalk
  rcases Finset.mem_insert.mp hw with rfl | hmem
  case inr => exact hSet w hmem p hwalk
  -- the new vertex u: every walk to it costs at least its popped key
  obtain ⟨hhead, hlast, hcost⟩ := hwalk
  have humem : w ∈ p := List.mem_of_getLast?_eq_some hlast
  obtain ⟨p₁, z, p₂, heq, hall, hz⟩ :=
    exists_first_notmem st.visited p w humem hu
  subst heq
  have hsplit := pathCost_split A p₁ z p₂
  have hcost_pre : pathCost A (p₁ ++ [z]) ≠ ⊤ := by
    intro htop
    rw [hsplit, htop, top_add] at hcost
    exact hcost rfl
  have hhead_pre : (p₁ ++ [z]).head? = some s := by
    rw [head?_append_cons] at hhead ⊢
    cases p₁ <;> exact hhead
  have hlast_pre : (p₁ ++ [z]).getLast? = some z := by
    rw [getLast?_append_cons]
    rfl
  have hdrop_pre : ∀ x ∈ (p₁ ++ [z]).dropLast, x ∈ st.visited := by
    intro x hx
    rw [List.dropLast_concat] at hx
    exact hall x hx
  have hzbound : st.dist z ≤ pathCost A (p₁ ++ [z]) := by
    have := hF s z (p₁ ++ [z]) hhead_pre hlast_pre hcost_pre hdrop_pre
    rw [hN.dist_s_zero, zero_add] at this
    exact this
  have hzne : st.dist z ≠ ⊤ := by
    intro htop
    rw [htop, top_le_iff] at hzbound
    exact hcost_pre hzbound
  have hzin : (st.dist z, z) ∈ st.pq := hS.unvisited_in_pq z hz hzne
  have hdz : d ≤ st.dist z := hmin (st.dist z, z) hzin
  show st.dist w ≤ pathCost A (p₁ ++ z :: p₂)
  rw [← hdu, hsplit]
  calc d ≤ st.dist z := hdz
    _ ≤ pathCost A (p₁ ++ [z]) := hzbound
    _ ≤ pathCost A (p₁ ++ [z]) + pathCost A (z :: p₂) :=
        le_add_of_nonneg_right (pathCost_nonneg Hnn _)

end Dijkstra

namespace Dijkstra

theorem relaxAll_dist_of_visited {n : ℕ} (A : Fin n → Fin n → W) (u : Fin n)
    (d : W) (st : DState n) {w : Fin n} (hw : w ∈ st.visited) :
    (relaxAll A u d st).dist w = st.dist w := by
  rw [relaxAll_dist, if_neg (fun hc => hc.1 hw)]

theorem relaxAll_prev_of_visited {n : ℕ} (A : Fin n → Fin n → W) (u : Fin n)
    (d : W) (st : DState n) {w : Fin n} (hw : w ∈ st.visited) :
    (relaxAll A u d st).prev w = st.prev w := by
  rw [relaxAll_prev, if_neg (fun hc => hc.1 hw)]

theorem SInv_relax {n : ℕ} {A : Fin n → Fin n → W} {s : Fin n}
    {st1 : DState n} (hS : SInv A s st1) {u : Fin n} {d : W}
    (hu : u ∈ st1.visited) (hdu : st1.dist u = d) (hd : d ≠ ⊤) :
    SInv A s (relaxAll A u d st1) := by
  have hwalk_u : ∃ p, Walk A s u p ∧ pathCost A p = d := by
    obtain ⟨p, hw, hc⟩ := hS.dist_walk u (hdu ▸ hd)
    exact ⟨p, hw, hdu ▸ hc⟩
  have hpush_walk : ∀ v, relaxCond A u d st1 v →
      ∃ p, Walk A s v p ∧ pathCost A p = d + A u v := by
    intro v hc
    obtain ⟨p, hw, hcp⟩ := hwalk_u
    obtain ⟨hw', hc'⟩ := walk_extend hw hc.2.1
    exact ⟨p ++ [v], hw', by rw [hc', hcp]⟩
  refine ⟨?_, ?_, ?_, ?_, ?_, ?_, ?_, ?_⟩
  · intro d' v hmem
    rcases (relaxAll_pq_mem A u d st1 (d', v)).mp hmem with h | ⟨v', hc, heq⟩
    · exact hS.keys_walk d' v h
    · obtain ⟨h1, h2⟩ := Prod.mk.injEq _ _ _ _ ▸ heq
      subst h2
      rw [h1]
      exact hpush_walk v hc
  · intro v hne
    rw [relaxAll_dist] at hne ⊢
    by_cases hc : relaxCond A u d st1 v
    · rw [if_pos hc] at hne ⊢
      exact hpush_walk v hc
    · rw [if_neg hc] at hne ⊢
      exact hS.dist_walk v hne
  · intro d' v hmem
    rcases (relaxAll_pq_mem A u d st1 (d', v)).mp hmem with h | ⟨v', hc, heq⟩
    · calc (relaxAll A u d st1).dist v ≤ st1.dist v := relaxAll_dist_le A u d st1 v
        _ ≤ d' := hS.dist_le_keys d' v h
    · obtain ⟨h1, h2⟩ := Prod.mk.injEq _ _ _ _ ▸ heq
      subst h2
      rw [h1, relaxAll_dist, if_pos hc]
  · intro v hv hne
    have hv1 : v ∉ st1.visited := by
      rw [relaxAll_visited] at hv
      exact hv
    rw [relaxAll_dist] at hne ⊢
    by_cases hc : relaxCond A u d st1 v
    · rw [if_pos hc]
      exact (relaxAll_pq_mem A u d st1 _).mpr (Or.inr ⟨v, hc, rfl⟩)
    · rw [if_neg hc] at hne ⊢
      exact (relaxAll_pq_mem A u d st1 _).mpr
        (Or.inl (hS.unvisited_in_pq v hv1 hne))
  · intro v u' hprev
    rw [relaxAll_prev] at hprev
    rw [relaxAll_visited]
    by_cases hc : relaxCond A u d st1 v
    · rw [if_pos hc] at hprev
      have huu : u' = u := Option.some_inj.mp hprev.symm
      subst huu
      have hvu : u' ≠ v := fun h => hc.1 (h ▸ hu)
      refine ⟨hu, hvu, hc.2.1, ?_, ?_⟩
      · rw [relaxAll_dist_of_visited A u' d st1 hu, hdu]
        exact hd
      · rw [relaxAll_dist, if_pos hc, relaxAll_dist_of_visited A u' d st1 hu, hdu]
    · rw [if_neg hc] at hprev
      obtain ⟨h1, h2, h3, h4, h5⟩ := hS.prev_spec v u' hprev
      refine ⟨h1, h2, h3, ?_, ?_⟩
      · rw [relaxAll_dist_of_visited A u d st1 h1]
        exact h4
      · rw [relaxAll_dist, if_neg hc, relaxAll_dist_of_visited A u d st1 h1]
        exact h5
  · intro v hvs hne
    rw [relaxAll_prev]
    rw [relaxAll_dist] at hne
    by_cases hc : relaxCond A u d st1 v
    · rw [if_pos hc]
      intro h
      cases h
    · rw [if_neg hc] at hne ⊢
      exact hS.prev_none v hvs hne
  · intro w hw
    rw [relaxAll_visited] at hw
    rw [relaxAll_dist_of_visited A u d st1 hw]
    exact hS.visited_dist w hw
  · rw [relaxAll_dist]
    by_cases hc : relaxCond A u d st1 s
    · rw [if_pos hc]
      exact WithTop.add_ne_top.mpr ⟨hd, hc.2.1⟩
    · rw [if_neg hc]
      exact hS.dist_s

theorem NInv_relax {n : ℕ} {A : Fin n → Fin n → W} {s : Fin n}
    (Hnn : NonnegW A) {st1 : DState n} (hN : NInv A s st1) {u : Fin n}
    {d : W} (hd0 : 0 ≤ d) : NInv A s (relaxAll A u d st1) := by
  have hnew_nonneg : ∀ v, (0 : W) ≤ d + A u v := fun v =>
    add_nonneg hd0 (weight_nonneg Hnn u v)
  have hnocond_s : ¬ relaxCond A u d st1 s := by
    intro hc
    have := hc.2.2
    rw [hN.dist_s_zero] at this
    exact absurd this (not_lt_of_le (hnew_nonneg s))
  refine ⟨?_, ?_, ?_⟩
  · intro v
    rw [relaxAll_dist]
    by_cases hc : relaxCond A u d st1 v
    · rw [if_pos hc]
      exact hnew_nonneg v
    · rw [if_neg hc]
      exact hN.dist_nonneg v
  · rw [relaxAll_prev, if_neg hnocond_s]
    exact hN.prev_s
  · rw [relaxAll_dist, if_neg hnocond_s]
    exact hN.dist_s_zero

theorem Settled_relax {n : ℕ} {A : Fin n → Fin n → W} {s : Fin n}
    {st1 : DState n} (hSet : Settled A s st1) (u : Fin n) (d : W) :
    Settled A s (relaxAll A u d st1) := by
  intro w hw p hwalk
  rw [relaxAll_visited] at hw
  rw [relaxAll_dist_of_visited A u d st1 hw]
  exact hSet w hw p hwalk

end Dijkstra

namespace Dijkstra

theorem Frontier_relax {n : ℕ} {A : Fin n → Fin n → W} {s : Fin n}
    (Hnn : NonnegW A) {st : DState n} (hS : SInv A s st) (hN : NInv A s st)
    (hSet : Settled A s st) (hF : FrontierBound A st) {d : W} {u : Fin n}
    {rest : List (W × Fin n)}
    (hpop : popMin st.pq = some ((d, u), rest)) (hu : u ∉ st.visited) :
    FrontierBound A
      (relaxAll A u d
        { dist := st.dist, prev := st.prev,
          visited := insert u st.visited, pq := rest }) := by
  obtain ⟨hdu, hdne, pw, hpw, hpwc⟩ := popped_facts hS hpop hu
  set st1 : DState n :=
    { dist := st.dist, prev := st.prev,
      visited := insert u st.visited, pq := rest } with hst1
  set st2 := relaxAll A u d st1 with hst2
  have hd0 : (0 : W) ≤ d := hdu ▸ hN.dist_nonneg u
  have hvis_dist : ∀ w, w ∈ insert u st.visited → st2.dist w = st.dist w :=
    fun w hw => relaxAll_dist_of_visited A u d st1 hw
  have hdist2u : st2.dist u = d := by
    rw [hvis_dist u (Finset.mem_insert_self u st.visited), hdu]
  have hyz : ∀ y, y ∈ st.visited → A u y ≠ ⊤ → st.dist y ≤ d + A u y := by
    intro y hy hA
    obtain ⟨hwext, hcext⟩ := walk_extend hpw hA
    have := hSet y hy (pw ++ [y]) hwext
    rw [hcext, hpwc] at this
    exact this
  have hrelax_le : ∀ y, y ∉ insert u st.visited → A u y ≠ ⊤ →
      st2.dist y ≤ d + A u y := by
    intro y hy hA
    rw [hst2, relaxAll_dist]
    by_cases hc : relaxCond A u d st1 y
    · rw [if_pos hc]
    · rw [if_neg hc]
      have : ¬ d + A u y < st1.dist y := by
        intro hlt
        exact hc ⟨hy, hA, hlt⟩
      exact le_of_not_lt this
  -- (T): bound for a tail leaving u whose interior avoids u and is settled
  have tLem : ∀ (r₂ : List (Fin n)) (v : Fin n),
      u ∉ r₂.dropLast → (∀ x ∈ r₂.dropLast, x ∈ st.visited) →
      (u :: r₂).getLast? = some v → pathCost A (u :: r₂) ≠ ⊤ →
      st2.dist v ≤ d + pathCost A (u :: r₂) := by
    intro r₂
    cases r₂ with
    | nil =>
      intro v _ _ hlast hcost
      have hv : u = v := by simpa using hlast
      subst hv
      rw [hdist2u, show pathCost A [u] = 0 from rfl, add_zero]
    | cons y rest' =>
      intro v hunot hdropvis hlast hcost
      have hAuy : A u y ≠ ⊤ := by
        intro htop
        rw [pathCost_cons₂, htop, top_add] at hcost
        exact hcost rfl
      have hclaim1 : st2.dist y ≤ d + A u y := by
        by_cases hy1 : y ∈ insert u st.visited
        · rw [hvis_dist y hy1]
          rcases Finset.mem_insert.mp hy1 with hyu | hyv
          · rw [hyu, ← hdu]
            exact le_add_of_nonneg_right (weight_nonneg Hnn u u)
          · exact hyz y hyv hAuy
        · exact hrelax_le y hy1 hAuy
      cases rest' with
      | nil =>
        have hv : y = v := by simpa using hlast
        subst hv
        have e1 : pathCost A [u, y] = A u y + 0 := rfl
        rw [e1, ← add_assoc, add_zero]
        exact hclaim1
      | cons z rest'' =>
        have hymem : y ∈ (y :: z :: rest'').dropLast := by
          rw [List.dropLast_cons_of_ne_nil (List.cons_ne_nil z rest'')]
          exact List.mem_cons_self _ _
        have hyvis : y ∈ st.visited := hdropvis y hymem
        have hdisty : st.dist y ≤ d + A u y := hyz y hyvis hAuy
        have hcost_tail : pathCost A (y :: z :: rest'') ≠ ⊤ := by
          intro htop
          rw [pathCost_cons₂, htop, add_top] at hcost
          exact hcost rfl
        have hlast_tail : (y :: z :: rest'').getLast? = some v := by
          rw [List.getLast?_cons_cons] at hlast
          exact hlast
        have hfront := hF y v (y :: z :: rest'') rfl hlast_tail hcost_tail hdropvis
        have hd2v : st2.dist v ≤ st.dist v := relaxAll_dist_le A u d st1 v
        calc st2.dist v ≤ st.dist v := hd2v
          _ ≤ st.dist y + pathCost A (y :: z :: rest'') := hfront
          _ ≤ (d + A u y) + pathCost A (y :: z :: rest'') :=
              add_le_add_right hdisty _
          _ = d + pathCost A (u :: y :: z :: rest'') := by
              rw [pathCost_cons₂ A u y, add_assoc]
  -- (T'): same bound, interior allowed to revisit u
  have tLem' : ∀ (N : ℕ) (r₂ : List (Fin n)) (v : Fin n), r₂.length ≤ N →
      (∀ x ∈ r₂.dropLast, x ∈ insert u st.visited) →
      (u :: r₂).getLast? = some v → pathCost A (u :: r₂) ≠ ⊤ →
      st2.dist v ≤ d + pathCost A (u :: r₂) := by
    intro N
    induction N with
    | zero =>
      intro r₂ v hlen hdrop hlast hcost
      cases r₂ with
      | nil =>
        exact tLem [] v (List.not_mem_nil u) (by intro x hx; cases hx)
          hlast hcost
      | cons a t => simp at hlen
    | succ N ihN =>
      intro r₂ v hlen hdrop hlast hcost
      by_cases hu2 : u ∈ r₂.dropLast
      · have humem : u ∈ r₂ := (List.dropLast_sublist r₂).subset hu2
        obtain ⟨q₁, q₂, heq, hq1⟩ := exists_first_occ r₂ u humem
        subst heq
        have e1 : u :: (q₁ ++ u :: q₂) = (u :: q₁) ++ u :: q₂ := rfl
        have hsplit : pathCost A (u :: (q₁ ++ u :: q₂)) =
            pathCost A ((u :: q₁) ++ [u]) + pathCost A (u :: q₂) := by
          rw [e1, pathCost_split A (u :: q₁) u q₂]
        have hlast2 : (u :: q₂).getLast? = some v := by
          rw [e1, getLast?_append_cons] at hlast
          exact hlast
        have hcost2 : pathCost A (u :: q₂) ≠ ⊤ := by
          intro htop
          rw [hsplit, htop, add_top] at hcost
          exact hcost rfl
        have hdrop2 : ∀ x ∈ q₂.dropLast, x ∈ insert u st.visited := by
          intro x hx
          apply hdrop
          rw [List.dropLast_append_cons]
          apply List.mem_append_right
          cases q₂ with
          | nil => cases hx
          | cons a t =>
            rw [List.dropLast_cons_of_ne_nil (List.cons_ne_nil a t)]
            exact List.mem_cons_of_mem u hx
        have hlen2 : q₂.length ≤ N := by
          rw [List.length_append, List.length_cons] at hlen
          omega
        have hrec := ihN q₂ v hlen2 hdrop2 hlast2 hcost2
        calc st2.dist v ≤ d + pathCost A (u :: q₂) := hrec
          _ ≤ d + (pathCost A ((u :: q₁) ++ [u]) + pathCost A (u :: q₂)) := by
              apply add_le_add_left
              exact le_add_of_nonneg_left (pathCost_nonneg Hnn _)
          _ = d + pathCost A (u :: (q₁ ++ u :: q₂)) := by rw [hsplit]
      · apply tLem r₂ v hu2 ?_ hlast hcost
        intro x hx
        rcases Finset.mem_insert.mp (hdrop x hx) with rfl | h
        · exact absurd hx hu2
        · exact h
  -- the frontier bound for the relaxed state
  intro y v r hhead hlast hcost hdrop
  rw [hst2, relaxAll_visited] at hdrop
  cases r with
  | nil => cases hhead
  | cons a t =>
    have hya : a = y := by simpa using hhead
    subst hya
    cases t with
    | nil =>
      have hv : a = v := by simpa using hlast
      subst hv
      rw [show pathCost A [a] = 0 from rfl, add_zero]
    | cons b t' =>
      have hymem : a ∈ (a :: b :: t').dropLast := by
        rw [List.dropLast_cons_of_ne_nil (List.cons_ne_nil b t')]
        exact List.mem_cons_self _ _
      have hyvis1 : a ∈ insert u st.visited := hdrop a hymem
      have hdist2y : st2.dist a = st.dist a := hvis_dist a hyvis1
      by_cases huin : u ∈ (a :: b :: t').dropLast
      · have humem : u ∈ a :: b :: t' :=
          (List.dropLast_sublist _).subset huin
        obtain ⟨r₁, r₂, heq, hur1⟩ := exists_first_occ (a :: b :: t') u humem
        cases r₁ with
        | nil =>
          -- the segment starts at u itself
          have hau : a = u := by
            have := congrArg List.head? heq
            simpa using this
          have ht : b :: t' = r₂ := by
            have := congrArg List.tail heq
            simpa using this
          subst hau
          rw [← ht] at *
          have hdrop2 : ∀ x ∈ (b :: t').dropLast, x ∈ insert a st.visited := by
            intro x hx
            apply hdrop
            rw [List.dropLast_cons_of_ne_nil (List.cons_ne_nil b t')]
            exact List.mem_cons_of_mem a hx
          have := tLem' (b :: t').length (b :: t') v (le_refl _) hdrop2 hlast hcost
          rw [hdist2y, ← hdu]
          exact this
        | cons w r₁' =>
          have haw : a = w := by
            have := congrArg List.head? heq
            simpa using this
          subst haw
          have ht : b :: t' = r₁' ++ u :: r₂ := by
            have := congrArg List.tail heq
            simpa using this
          have hr : a :: b :: t' = (a :: r₁') ++ u :: r₂ := by
            rw [ht]
            rfl
          have hane : a ≠ u := by
            intro h
            exact hur1 (h ▸ List.mem_cons_self a r₁')
          have hyvis : a ∈ st.visited := by
            rcases Finset.mem_insert.mp hyvis1 with h | h
            · exact absurd h hane
            · exact h
          -- the prefix from a to the first occurrence of u
          have hsplit : pathCost A (a :: b :: t') =
              pathCost A ((a :: r₁') ++ [u]) + pathCost A (u :: r₂) := by
            rw [hr, pathCost_split A (a :: r₁') u r₂]
          have hcost_pre : pathCost A ((a :: r₁') ++ [u]) ≠ ⊤ := by
            intro htop
            rw [hsplit, htop, top_add] at hcost
            exact hcost rfl
          have hhead_pre : ((a :: r₁') ++ [u]).head? = some a := rfl
          have hlast_pre : ((a :: r₁') ++ [u]).getLast? = some u :=
            List.getLast?_concat _
          have hsub_r1 : ∀ x ∈ a :: r₁', x ∈ st.visited := by
            intro x hx
            have hxdrop : x ∈ (a :: b :: t').dropLast := by
              rw [hr, List.dropLast_append_cons]
              exact List.mem_append_left _ hx
            rcases Finset.mem_insert.mp (hdrop x hxdrop) with rfl | h
            · exact absurd hx hur1
            · exact h
          have hdrop_pre : ∀ x ∈ ((a :: r₁') ++ [u]).dropLast, x ∈ st.visited := by
            intro x hx
            rw [List.dropLast_concat] at hx
            exact hsub_r1 x hx
          have hprefix : d ≤ st.dist a + pathCost A ((a :: r₁') ++ [u]) := by
            rw [hdu]
            exact hF a u _ hhead_pre hlast_pre hcost_pre hdrop_pre
          cases r₂ with
          | nil =>
            -- the walk ends at u
            have hvu : u = v := by
              rw [hr] at hlast
              rw [List.getLast?_concat] at hlast
              exact Option.some_inj.mp hlast
            subst hvu
            have hdist2v : st2.dist u = d := hdist2u
            rw [hdist2v, hdist2y, hr, pathCost_split A (a :: r₁') u []]
            rw [show pathCost A [u] = 0 from rfl, add_zero]
            exact hprefix
          | cons c t'' =>
            have hlast2 : (u :: c :: t'').getLast? = some v := by
              rw [hr, getLast?_append_cons] at hlast
              exact hlast
            have hcost2 : pathCost A (u :: c :: t'') ≠ ⊤ := by
              intro htop
              rw [hsplit, htop, add_top] at hcost
              exact hcost rfl
            have hdrop2 : ∀ x ∈ (c :: t'').dropLast, x ∈ insert u st.visited := by
              intro x hx
              apply hdrop
              rw [hr, List.dropLast_append_cons]
              apply List.mem_append_right
              rw [List.dropLast_cons_of_ne_nil (List.cons_ne_nil c t'')]
              exact List.mem_cons_of_mem u hx
            have hrec := tLem' (c :: t'').length (c :: t'') v (le_refl _)
              hdrop2 hlast2 hcost2
            calc st2.dist v ≤ d + pathCost A (u :: c :: t'') := hrec
              _ ≤ (st.dist a + pathCost A ((a :: r₁') ++ [u])) +
                    pathCost A (u :: c :: t'') := add_le_add_right hprefix _
              _ = st.dist a + pathCost A (a :: b :: t') := by
                  rw [hsplit, add_assoc]
              _ = st2.dist a + pathCost A (a :: b :: t') := by rw [hdist2y]
      · have hdropold : ∀ x ∈ (a :: b :: t').dropLast, x ∈ st.visited := by
          intro x hx
          rcases Finset.mem_insert.mp (hdrop x hx) with rfl | h
          · exact absurd hx huin
          · exact h
        have hfront := hF a v (a :: b :: t') rfl hlast hcost hdropold
        calc st2.dist v ≤ st.dist v := relaxAll_dist_le A u d st1 v
          _ ≤ st.dist a + pathCost A (a :: b :: t') := hfront
          _ = st2.dist a + pathCost A (a :: b :: t') := by rw [hdist2y]

end Dijkstra

namespace Dijkstra

theorem dijkstraLoop_SInv {n : ℕ} (A : Fin n → Fin n → W) (s : Fin n)
    (stop? : Option (Fin n)) :
    ∀ st : DState n, SInv A s st → SInv A s (dijkstraLoop A stop? st) := by
  intro st
  induction st using dijkstraLoop.induct A stop? with
  | case1 x hpop =>
    intro hS
    rw [dijkstraLoop_none A stop? x hpop]
    exact hS
  | case2 x d u rest hpop hu ih =>
    intro hS
    rw [dijkstraLoop_skip A stop? x d u rest hpop hu]
    exact ih (SInv_skip hS hpop hu)
  | case3 x d u rest hpop hu hstop =>
    intro hS
    rw [dijkstraLoop_stop A stop? x d u rest hpop hu hstop]
    exact SInv_visit hS hpop hu
  | case4 x d u rest hpop hu st1 hstop ih =>
    intro hS
    rw [dijkstraLoop_relax A stop? x d u rest hpop hu hstop]
    apply ih
    have hS1 := SInv_visit hS hpop hu
    obtain ⟨hdu, hdne, _⟩ := popped_facts hS hpop hu
    exact SInv_relax hS1 (Finset.mem_insert_self u x.visited) hdu.symm hdne

theorem dijkstraLoop_main {n : ℕ} {A : Fin n → Fin n → W} {s : Fin n}
    (Hnn : NonnegW A) (stop? : Option (Fin n)) :
    ∀ st : DState n, SInv A s st → NInv A s st → Settled A s st →
      FrontierBound A st →
      SInv A s (dijkstraLoop A stop? st) ∧
      NInv A s (dijkstraLoop A stop? st) ∧
      Settled A s (dijkstraLoop A stop? st) ∧
      (((dijkstraLoop A stop? st).pq = [] ∧
          FrontierBound A (dijkstraLoop A stop? st)) ∨
        ∃ t, stop? = some t ∧ t ∈ (dijkstraLoop A stop? st).visited) := by
  intro st
  induction st using dijkstraLoop.induct A stop? with
  | case1 x hpop =>
    intro hS hN hSet hF
    rw [dijkstraLoop_none A stop? x hpop]
    exact ⟨hS, hN, hSet, Or.inl ⟨popMin_none_iff.mp hpop, hF⟩⟩
  | case2 x d u rest hpop hu ih =>
    intro hS hN hSet hF
    rw [dijkstraLoop_skip A stop? x d u rest hpop hu]
    refine ih (SInv_skip hS hpop hu)
      ⟨hN.dist_nonneg, hN.prev_s, hN.dist_s_zero⟩ ?_ ?_
    · intro w hw p hwalk
      exact hSet w hw p hwalk
    · intro y v r h1 h2 h3 h4
      exact hF y v r h1 h2 h3 h4
  | case3 x d u rest hpop hu hstop =>
    intro hS hN hSet hF
    rw [dijkstraLoop_stop A stop? x d u rest hpop hu hstop]
    refine ⟨SInv_visit hS hpop hu,
      ⟨hN.dist_nonneg, hN.prev_s, hN.dist_s_zero⟩,
      Settled_visit Hnn hS hN hSet hF hpop hu,
      Or.inr ⟨u, hstop, Finset.mem_insert_self u x.visited⟩⟩
  | case4 x d u rest hpop hu st1 hstop ih =>
    intro hS hN hSet hF
    rw [dijkstraLoop_relax A stop? x d u rest hpop hu hstop]
    have hS1 := SInv_visit hS hpop hu
    obtain ⟨hdu, hdne, _⟩ := popped_facts hS hpop hu
    have hd0 : (0 : W) ≤ d := hdu ▸ hN.dist_nonneg u
    refine ih (SInv_relax hS1 (Finset.mem_insert_self u x.visited) hdu.symm hdne)
      (NInv_relax Hnn
        (show NInv A s st1 from ⟨hN.dist_nonneg, hN.prev_s, hN.dist_s_zero⟩) hd0)
      (Settled_relax (Settled_visit Hnn hS hN hSet hF hpop hu) u d)
      (Frontier_relax Hnn hS hN hSet hF hpop hu)

theorem initState_dist {n : ℕ} (s v : Fin n) :
    (initState s).dist v = if v = s then 0 else ⊤ := by
  show Function.update (fun _ => (⊤ : W)) s 0 v = _
  rw [Function.update_apply]

theorem SInv_init {n : ℕ} (A : Fin n → Fin n → W) (s : Fin n) :
    SInv A s (initState s) := by
  refine ⟨?_, ?_, ?_, ?_, ?_, ?_, ?_, ?_⟩
  · intro d v hmem
    have heq : (d, v) = ((0 : W), s) := List.mem_singleton.mp hmem
    obtain ⟨h1, h2⟩ := Prod.mk.injEq _ _ _ _ ▸ heq
    subst h2
    rw [h1]
    exact ⟨[v], walk_single A v, rfl⟩
  · intro v hne
    by_cases hv : v = s
    · subst hv
      refine ⟨[v], walk_single A v, ?_⟩
      rw [initState_dist, if_pos rfl]
      rfl
    · exact absurd ((initState_dist s v).trans (if_neg hv)) hne
  · intro d v hmem
    have heq : (d, v) = ((0 : W), s) := List.mem_singleton.mp hmem
    obtain ⟨h1, h2⟩ := Prod.mk.injEq _ _ _ _ ▸ heq
    subst h2
    rw [h1, initState_dist, if_pos rfl]
  · intro v _ hne
    have hv : v = s := by
      by_contra hv
      exact hne ((initState_dist s v).trans (if_neg hv))
    subst hv
    rw [initState_dist, if_pos rfl]
    exact List.mem_singleton.mpr rfl
  · intro v u h
    exact Option.noConfusion h
  · intro v hv hne
    exact absurd ((initState_dist s v).trans (if_neg hv)) hne
  · intro u hu
    exact absurd hu (Finset.not_mem_empty u)
  · rw [initState_dist, if_pos rfl]
    simp

theorem NInv_init {n : ℕ} (A : Fin n → Fin n → W) (s : Fin n) :
    NInv A s (initState s) := by
  refine ⟨?_, rfl, ?_⟩
  · intro v
    rw [initState_dist]
    by_cases hv : v = s
    · rw [if_pos hv]
    · rw [if_neg hv]
      exact le_top
  · rw [initState_dist, if_pos rfl]

theorem Settled_init {n : ℕ} (A : Fin n → Fin n → W) (s : Fin n) :
    Settled A s (initState s) := by
  intro u hu
  exact absurd hu (Finset.not_mem_empty u)

theorem Frontier_init {n : ℕ} (A : Fin n → Fin n → W) (s : Fin n) :
    FrontierBound A (initState s) := by
  intro y v r hhead hlast hcost hdrop
  cases r with
  | nil => cases hhead
  | cons a t =>
    cases t with
    | nil =>
      have hy : a = y := by simpa using hhead
      have hv : a = v := by simpa using hlast
      subst hy
      subst hv
      rw [show pathCost A [a] = 0 from rfl, add_zero]
    | cons b t' =>
      exfalso
      have hmem : a ∈ (a :: b :: t').dropLast := by
        rw [List.dropLast_cons_of_ne_nil (List.cons_ne_nil b t')]
        exact List.mem_cons_self _ _
      exact absurd (hdrop a hmem) (Finset.not_mem_empty a)

end Dijkstra

namespace Dijkstra

theorem final_lower_bound {n : ℕ} {A : Fin n → Fin n → W} {s : Fin n}
    {stf : DState n} (hS : SInv A s stf) (hN : NInv A s stf)
    (hpq : stf.pq = []) (hF : FrontierBound A stf) :
    ∀ (v : Fin n) (p : List (Fin n)), Walk A s v p →
      stf.dist v ≤ pathCost A p := by
  intro v p hw
  obtain ⟨hhead, hlast, hcost⟩ := hw
  by_cases hall : ∀ x ∈ p, x ∈ stf.visited
  · have hdrop : ∀ x ∈ p.dropLast, x ∈ stf.visited := fun x hx =>
      hall x ((List.dropLast_sublist p).subset hx)
    have := hF s v p hhead hlast hcost hdrop
    rw [hN.dist_s_zero, zero_add] at this
    exact this
  · exfalso
    push_neg at hall
    obtain ⟨x, hxp, hxv⟩ := hall
    obtain ⟨p₁, z, p₂, heq, hp1, hz⟩ :=
      exists_first_notmem stf.visited p x hxp hxv
    subst heq
    have hsplit := pathCost_split A p₁ z p₂
    have hcost_pre : pathCost A (p₁ ++ [z]) ≠ ⊤ := by
      intro htop
      rw [hsplit, htop, top_add] at hcost
      exact hcost rfl
    have hhead_pre : (p₁ ++ [z]).head? = some s := by
      rw [head?_append_cons] at hhead ⊢
      cases p₁ <;> exact hhead
    have hdrop_pre : ∀ y ∈ (p₁ ++ [z]).dropLast, y ∈ stf.visited := by
      intro y hy
      rw [List.dropLast_concat] at hy
      exact hp1 y hy
    have hbound := hF s z (p₁ ++ [z]) hhead_pre (List.getLast?_concat _)
      hcost_pre hdrop_pre
    rw [hN.dist_s_zero, zero_add] at hbound
    have hztop : stf.dist z = ⊤ := by
      by_contra hne
      have := hS.unvisited_in_pq z hz hne
      rw [hpq] at this
      cases this
    rw [hztop, top_le_iff] at hbound
    exact hcost_pre hbound

end Dijkstra

/-- Positive-or-absent off-diagonal weights with a zero-or-absent diagonal:
the adjacency matrices the engine is specified on. -/
def PosWeights {n : ℕ} (A : Fin n → Fin n → W) : Prop :=
  (∀ i, A i i = 0 ∨ A i i = ⊤) ∧ ∀ i j, i ≠ j → A i j = ⊤ ∨ 0 < A i j

theorem PosWeights.nonneg {n : ℕ} {A : Fin n → Fin n → W}
    (h : PosWeights A) : NonnegW A := by
  intro i j
  by_cases hij : i = j
  · subst hij
    rcases h.1 i with h1 | h1
    · exact Or.inr (le_of_eq h1.symm)
    · exact Or.inl h1
  · rcases h.2 i j hij with h1 | h1
    · exact Or.inl h1
    · exact Or.inr (le_of_lt h1)

namespace Dijkstra

/-- Claim C1: for every graph whose adjacency matrix has only positive
finite edge weights off the diagonal (non-edges being the `+∞` sentinel,
the diagonal zero or absent) and every start and end vertex, the distance
returned by `Dijkstra.find_shortest_path` equals the minimum, over all
simple paths from start to end, of the sum of the edge weights along the
path: it lower-bounds every simple path cost, it is attained by a simple
path whenever finite, and it is `+∞` exactly when no simple path exists. -/
theorem C1_dijkstra_distance_optimal {n : ℕ} (A : Fin n → Fin n → W)
    (s t : Fin n) (hA : PosWeights A) :
    (∀ p, SimplePath A s t p →
      (find_shortest_path A s t).2 ≤ pathCost A p) ∧
    ((find_shortest_path A s t).2 ≠ ⊤ →
      ∃ p, SimplePath A s t p ∧ pathCost A p = (find_shortest_path A s t).2) ∧
    ((find_shortest_path A s t).2 = ⊤ → ∀ p, ¬ SimplePath A s t p) := by
  have Hnn := hA.nonneg
  obtain ⟨hS, hN, hSet, hpost⟩ := dijkstraLoop_main Hnn (some t) (initState s)
    (SInv_init A s) (NInv_init A s) (Settled_init A s) (Frontier_init A s)
  have hres : (find_shortest_path A s t).2 =
      (dijkstraLoop A (some t) (initState s)).dist t := rfl
  have hLB : ∀ p, Walk A s t p →
      (find_shortest_path A s t).2 ≤ pathCost A p := by
    intro p hw
    rw [hres]
    rcases hpost with ⟨hpq, hF⟩ | ⟨t', ht', hmem⟩
    · exact final_lower_bound hS hN hpq hF t p hw
    · have : t' = t := Option.some_inj.mp ht'.symm
      subst this
      exact hSet t' hmem p hw
  refine ⟨fun p hp => hLB p hp.1, ?_, ?_⟩
  · intro hne
    rw [hres] at hne ⊢
    obtain ⟨q, hwq, hcq⟩ := hS.dist_walk t hne
    obtain ⟨q', hsp, hle⟩ :=
      exists_simple_of_walk Hnn s t q.length q (le_refl _) hwq
    refine ⟨q', hsp, le_antisymm (hcq ▸ hle) ?_⟩
    exact hLB q' hsp.1
  · intro htop p hp
    have := hLB p hp.1
    rw [htop, top_le_iff] at this
    exact hp.1.2.2 this

theorem find_shortest_path_unreachable {n : ℕ} (A : Fin n → Fin n → W)
    (s t : Fin n) (hnr : ¬ Reachable A s t) :
    find_shortest_path A s t = ([], ⊤) := by
  have hS := dijkstraLoop_SInv A s (some t) (initState s) (SInv_init A s)
  have hst : s ≠ t := by
    intro h
    exact hnr (h ▸ reachable_self A s)
  have hdist : (dijkstraLoop A (some t) (initState s)).dist t = ⊤ := by
    by_contra hne
    obtain ⟨p, hw, _⟩ := hS.dist_walk t hne
    exact hnr ⟨p, hw⟩
  have hprev : (dijkstraLoop A (some t) (initState s)).prev t = none := by
    cases hp : (dijkstraLoop A (some t) (initState s)).prev t with
    | none => rfl
    | some u =>
      obtain ⟨_, _, h3, h4, h5⟩ := hS.prev_spec t u hp
      rw [h5] at hdist
      exact absurd hdist (WithTop.add_ne_top.mpr ⟨h4, h3⟩)
  show (reconstruct_path _ s t, _) = ([], ⊤)
  rw [reconstruct_path, if_pos ⟨hprev, hst⟩, hdist]

end Dijkstra

namespace Dijkstra

/-- A concrete two-vertex graph with a single unit edge. -/
def A2 : Fin 2 → Fin 2 → W := fun i j => if i = j then 0 else ((1 : ℚ) : W)

/-- Claim C1, witness: the optimality theorem applied to the concrete
two-vertex unit-edge graph. -/
theorem C1_witness :
    (∀ p, SimplePath A2 0 1 p →
      (find_shortest_path A2 0 1).2 ≤ pathCost A2 p) ∧
    ((find_shortest_path A2 0 1).2 ≠ ⊤ →
      ∃ p, SimplePath A2 0 1 p ∧ pathCost A2 p = (find_shortest_path A2 0 1).2) ∧
    ((find_shortest_path A2 0 1).2 = ⊤ → ∀ p, ¬ SimplePath A2 0 1 p) :=
  C1_dijkstra_distance_optimal A2 0 1 (by constructor <;> decide)

end Dijkstra

namespace Dijkstra

theorem chase_card_lt {n : ℕ} (stf : DState n) (v : Fin n) :
    (Finset.univ.filter fun x => stf.dist x < stf.dist v).card < n := by
  have hsub : (Finset.univ.filter fun x => stf.dist x < stf.dist v) ⊆
      Finset.univ.erase v := by
    intro x hx
    simp only [Finset.mem_filter] at hx
    rw [Finset.mem_erase]
    refine ⟨fun h => ?_, Finset.mem_univ x⟩
    subst h
    exact lt_irrefl _ hx.2
  have h1 := Finset.card_le_card hsub
  rw [Finset.card_erase_of_mem (Finset.mem_univ v)] at h1
  have h2 : (Finset.univ : Finset (Fin n)).card = n := by
    rw [Finset.card_univ, Fintype.card_fin]
  have hpos : 0 < n := v.pos
  omega

/-- With positive weights the predecessor chain from any finite-distance
vertex is a reversed simple path from the source realizing the tentative
distance: the chain strictly decreases the distance, so fuel bounded by
the number of strictly-closer vertices suffices. -/
theorem prevChase_spec {n : ℕ} {A : Fin n → Fin n → W} {s : Fin n}
    {stf : DState n} (hA : PosWeights A) (hS : SInv A s stf)
    (hN : NInv A s stf) :
    ∀ (k : ℕ) (v : Fin n), stf.dist v ≠ ⊤ →
      (Finset.univ.filter fun x => stf.dist x < stf.dist v).card < k →
      Walk A s v (prevChase stf.prev k v).reverse ∧
      pathCost A (prevChase stf.prev k v).reverse = stf.dist v ∧
      (prevChase stf.prev k v).Nodup ∧
      ∀ x ∈ prevChase stf.prev k v, stf.dist x ≤ stf.dist v := by
  intro k
  induction k with
  | zero =>
    intro v _ hcard
    exact absurd hcard (Nat.not_lt_zero _)
  | succ k ih =>
    intro v hv hcard
    cases hp : stf.prev v with
    | none =>
      have he : prevChase stf.prev (k + 1) v = [v] := by
        simp only [prevChase, hp]
      have hvs : v = s := by
        by_contra hvs
        exact hS.prev_none v hvs hv hp
      subst hvs
      rw [he, List.reverse_singleton]
      refine ⟨walk_single A v, ?_, List.nodup_singleton v, ?_⟩
      · rw [hN.dist_s_zero]
        rfl
      · intro x hx
        rw [List.mem_singleton.mp hx]
    | some u =>
      have he : prevChase stf.prev (k + 1) v = v :: prevChase stf.prev k u := by
        simp only [prevChase, hp]
      obtain ⟨huvis, hune, hAuv, hdu, hdv⟩ := hS.prev_spec v u hp
      have hposuv : 0 < A u v := by
        rcases hA.2 u v hune with h | h
        · exact absurd h hAuv
        · exact h
      have hlt : stf.dist u < stf.dist v := by
        rw [hdv]
        exact lt_add_of_pos_W hdu hposuv
      have hsub : (Finset.univ.filter fun x => stf.dist x < stf.dist u) ⊂
          (Finset.univ.filter fun x => stf.dist x < stf.dist v) := by
        constructor
        · intro x hx
          simp only [Finset.mem_filter] at hx ⊢
          exact ⟨hx.1, lt_trans hx.2 hlt⟩
        · intro hcon
          have hu : u ∈ (Finset.univ.filter fun x => stf.dist x < stf.dist v) := by
            simp only [Finset.mem_filter]
            exact ⟨Finset.mem_univ u, hlt⟩
          have := hcon hu
          simp only [Finset.mem_filter] at this
          exact lt_irrefl _ this.2
      have hcard' :
          (Finset.univ.filter fun x => stf.dist x < stf.dist u).card < k := by
        have := Finset.card_lt_card hsub
        omega
      obtain ⟨hw, hc, hnd, hle⟩ := ih u hdu hcard'
      have hext := walk_extend hw hAuv
      rw [he, List.reverse_cons]
      refine ⟨hext.1, ?_, ?_, ?_⟩
      · rw [hext.2, hc, ← hdv]
      · rw [List.nodup_cons]
        refine ⟨fun hmem => ?_, hnd⟩
        exact absurd (hle v hmem) (not_le.mpr hlt)
      · intro x hx
        rcases List.mem_cons.mp hx with rfl | hx
        · exact le_refl _
        · exact le_trans (hle x hx) (le_of_lt hlt)

/-- Claim C8 (corrected): `find_all_shortest_paths` runs the same
relaxation loop without the early exit (`dijkstraLoop` with `stop? =
none`), and for every vertex OTHER THAN THE SOURCE reachable from the
source its result contains that vertex's shortest path and distance: a
simple path realizing the returned distance, which lower-bounds every
walk cost. (The source itself is omitted from the results even though it
is reachable from itself.) -/
theorem C8_find_all_reachable {n : ℕ} (A : Fin n → Fin n → W) (s v : Fin n)
    (hA : PosWeights A) (hr : Reachable A s v) (hvs : v ≠ s) :
    ∃ p d, find_all_shortest_paths A s v = some (p, d) ∧
      SimplePath A s v p ∧ pathCost A p = d ∧ d ≠ ⊤ ∧
      ∀ q, Walk A s v q → d ≤ pathCost A q := by
  have Hnn := hA.nonneg
  obtain ⟨hS, hN, hSet, hpost⟩ := dijkstraLoop_main Hnn none (initState s)
    (SInv_init A s) (NInv_init A s) (Settled_init A s) (Frontier_init A s)
  set stf := dijkstraLoop A none (initState s) with hstf
  rcases hpost with ⟨hpq, hF⟩ | ⟨t, ht, _⟩
  swap
  · exact Option.noConfusion ht
  have hLB : ∀ q, Walk A s v q → stf.dist v ≤ pathCost A q :=
    fun q hq => final_lower_bound hS hN hpq hF v q hq
  obtain ⟨q0, hq0⟩ := hr
  have hdv : stf.dist v ≠ ⊤ := by
    intro htop
    have := hLB q0 hq0
    rw [htop, top_le_iff] at this
    exact hq0.2.2 this
  have hprev : stf.prev v ≠ none := hS.prev_none v hvs hdv
  obtain ⟨hw, hc, hnd, _⟩ :=
    prevChase_spec hA hS hN n v hdv (chase_card_lt stf v)
  refine ⟨(prevChase stf.prev n v).reverse, stf.dist v, ?_,
    ⟨hw, List.nodup_reverse.mpr hnd⟩, hc, hdv, hLB⟩
  show (if v = s then none
    else some (reconstruct_path stf.prev s v, stf.dist v)) = _
  rw [if_neg hvs, reconstruct_path, if_neg (fun h => hprev h.1)]

/-- Claim C8, counterexample: the source vertex is reachable from itself,
yet `find_all_shortest_paths` omits it from the results. -/
theorem C8_counterexample :
    find_all_shortest_paths A2 0 0 = none ∧ Reachable A2 0 0 :=
  ⟨rfl, reachable_self A2 0⟩

/-- Claim C8, witness: the corrected theorem applied to the concrete
two-vertex unit-edge graph. -/
theorem C8_witness :
    ∃ p d, find_all_shortest_paths A2 0 1 = some (p, d) ∧
      SimplePath A2 0 1 p ∧ pathCost A2 p = d ∧ d ≠ ⊤ ∧
      ∀ q, Walk A2 0 1 q → d ≤ pathCost A2 q :=
  C8_find_all_reachable A2 0 1 (by constructor <;> decide)
    ⟨[0, 1], by decide, by decide, by decide⟩ (by decide)

end Dijkstra

namespace AntColony

/-- The heuristic matrix built in `AntColonyOptimization.__init__`:
`1/weight` for finite off-diagonal entries, `0` elsewhere (the `np.zeros`
initialisation). -/
def heuristic {n : ℕ} (A : Fin n → Fin n → W) (i j : Fin n) : ℚ :=
  match A i j with
  | none => 0
  | some w => if i = j then 0 else 1 / w

/-- The pheromone matrix initialisation `np.ones((n, n))`. -/
def initPheromone {n : ℕ} : Fin n → Fin n → ℚ := fun _ _ => 1

/-- The candidate list of `_select_next_node`: unvisited vertices with a
finite edge from the current vertex, in index order. -/
def unvisitedNeighbors {n : ℕ} (A : Fin n → Fin n → W) (current : Fin n)
    (visited : Finset (Fin n)) : List (Fin n) :=
  (List.finRange n).filter fun i =>
    decide (i ∉ visited) && decide (A current i ≠ ⊤)

/-- The unnormalised selection weights of `_select_next_node`:
`pheromone**alpha` times `heuristic**beta`, the latter doubled when the
candidate is the target (real exponents restricted to naturals; the
defaults `alpha = 1.0`, `beta = 5.0` are natural). -/
def rawProbs {n : ℕ} (A : Fin n → Fin n → W) (τ : Fin n → Fin n → ℚ)
    (a b : ℕ) (current end_idx : Fin n) (cand : List (Fin n)) : List ℚ :=
  cand.map fun node =>
    τ current node ^ a *
      (if node = end_idx then heuristic A current node ^ b * 2
       else heuristic A current node ^ b)

/-- Inverse-CDF draw from a weight list: the first index whose prefix sum
exceeds the sample, the last index as fallback — the model of
`np.random.choice(unvisited, p=probabilities)` for a sample `r` drawn
uniformly from `[0, 1)`. -/
def pickIdx : List ℚ → ℚ → ℕ
  | [], _ => 0
  | [_], _ => 0
  | p :: q :: rest, r => if r < p then 0 else pickIdx (q :: rest) (r - p) + 1

theorem pickIdx_lt_length : ∀ (l : List ℚ) (r : ℚ), l ≠ [] →
    pickIdx l r < l.length := by
  intro l
  induction l with
  | nil => intro r h; exact absurd rfl h
  | cons p rest ih =>
    intro r _
    cases rest with
    | nil => exact Nat.zero_lt_one
    | cons q rest' =>
      rw [pickIdx]
      by_cases hr : r < p
      · rw [if_pos hr]
        exact Nat.zero_lt_succ _
      · rw [if_neg hr]
        have := ih (r - p) (List.cons_ne_nil q rest')
        simpa [Nat.succ_lt_succ_iff] using this

/-- `AntColonyOptimization._select_next_node` (the categorical draw made
explicit through the sample `r`). -/
def select_next_node {n : ℕ} (A : Fin n → Fin n → W)
    (τ : Fin n → Fin n → ℚ) (a b : ℕ) (current : Fin n)
    (visited : Finset (Fin n)) (end_idx : Fin n) (r : ℚ) : Option (Fin n) :=
  let unvisited := unvisitedNeighbors A current visited
  if unvisited = [] then none
  else
    let probs := rawProbs A τ a b current end_idx unvisited
    let total := probs.sum
    let probs2 :=
      if total = 0 then List.replicate unvisited.length (1 : ℚ) else probs
    let total2 :=
      if total = 0 then (unvisited.length : ℚ) else total
    let normalized := probs2.map fun p => p / total2
    some (unvisited.getD (pickIdx normalized r) current)

theorem rawProbs_length {n : ℕ} (A : Fin n → Fin n → W)
    (τ : Fin n → Fin n → ℚ) (a b : ℕ) (current end_idx : Fin n)
    (cand : List (Fin n)) :
    (rawProbs A τ a b current end_idx cand).length = cand.length :=
  List.length_map _ _

theorem select_none_iff {n : ℕ} (A : Fin n → Fin n → W)
    (τ : Fin n → Fin n → ℚ) (a b : ℕ) (current : Fin n)
    (visited : Finset (Fin n)) (end_idx : Fin n) (r : ℚ) :
    select_next_node A τ a b current visited end_idx r = none ↔
      unvisitedNeighbors A current visited = [] := by
  rw [select_next_node]
  by_cases h : unvisitedNeighbors A current visited = []
  · rw [if_pos h]
    exact ⟨fun _ => h, fun _ => rfl⟩
  · rw [if_neg h]
    exact ⟨fun hc => Option.noConfusion hc, fun hc => absurd hc h⟩

theorem getD_mem_of_lt {α : Type} (l : List α) (d : α) (i : ℕ)
    (h : i < l.length) : l.getD i d ∈ l := by
  rw [List.getD_eq_getElem l d h]
  exact List.getElem_mem h

theorem select_mem {n : ℕ} {A : Fin n → Fin n → W}
    {τ : Fin n → Fin n → ℚ} {a b : ℕ} {current : Fin n}
    {visited : Finset (Fin n)} {end_idx : Fin n} {r : ℚ} {v : Fin n}
    (h : select_next_node A τ a b current visited end_idx r = some v) :
    v ∈ unvisitedNeighbors A current visited := by
  rw [select_next_node] at h
  set u := unvisitedNeighbors A current visited with hudef
  by_cases hu : u = []
  · rw [if_pos hu] at h
    exact Option.noConfusion h
  · rw [if_neg hu] at h
    dsimp only at h
    set probs := rawProbs A τ a b current end_idx u with hprobs
    set total := probs.sum with htotal
    set probs2 := if total = 0 then List.replicate u.length (1 : ℚ) else probs
      with hprobs2
    set total2 := if total = 0 then (u.length : ℚ) else total with htotal2
    set normalized := probs2.map (fun p => p / total2) with hnorm
    have hv := Option.some_inj.mp h
    subst hv
    apply getD_mem_of_lt
    have hlen : normalized.length = u.length := by
      rw [hnorm, List.length_map, hprobs2]
      by_cases ht : total = 0
      · rw [if_pos ht, List.length_replicate]
      · rw [if_neg ht, hprobs, rawProbs_length]
    have hne : normalized ≠ [] := by
      intro hc
      apply hu
      have hl := congrArg List.length hc
      rw [hlen] at hl
      exact List.length_eq_zero.mp hl
    have hbound := pickIdx_lt_length normalized r hne
    rw [hlen] at hbound
    exact hbound

end AntColony

namespace AntColony

theorem mem_unvisitedNeighbors {n : ℕ} {A : Fin n → Fin n → W}
    {current : Fin n} {visited : Finset (Fin n)} {v : Fin n} :
    v ∈ unvisitedNeighbors A current visited ↔
      v ∉ visited ∧ A current v ≠ ⊤ := by
  rw [unvisitedNeighbors, List.mem_filter]
  simp [List.mem_finRange]

/-- The `while current != end_idx and len(visited) < num_nodes` loop of
`_construct_solution`, with the post-loop target check folded in; the
counter `k` indexes the random stream, advancing once per categorical
draw. -/
def constructLoop {n : ℕ} (A : Fin n → Fin n → W) (τ : Fin n → Fin n → ℚ)
    (a b : ℕ) (end_idx : Fin n) (rng : ℕ → ℚ)
    (path : List (Fin n)) (visited : Finset (Fin n)) (current : Fin n)
    (total : W) (k : ℕ) : (List (Fin n) × W) × ℕ :=
  if hguard : current ≠ end_idx ∧ visited.card < n then
    match hsel : select_next_node A τ a b current visited end_idx (rng k) with
    | none => (([], ⊤), k)
    | some nxt =>
      constructLoop A τ a b end_idx rng (path ++ [nxt]) (insert nxt visited)
        nxt (total + A current nxt) (k + 1)
  else
    if current ≠ end_idx then (([], ⊤), k)
    else ((path, total), k)
termination_by n - visited.card
decreasing_by
  have hmem := select_mem hsel
  have hnv : nxt ∉ visited := (mem_unvisitedNeighbors.mp hmem).1
  have hcard := Finset.card_insert_of_not_mem hnv
  omega

/-- `AntColonyOptimization._construct_solution`: one ant walks from the
start, returning the path with its total distance and the advanced
stream counter. -/
def construct_solution {n : ℕ} (A : Fin n → Fin n → W)
    (τ : Fin n → Fin n → ℚ) (a b : ℕ) (start_idx end_idx : Fin n)
    (rng : ℕ → ℚ) (k : ℕ) : (List (Fin n) × W) × ℕ :=
  constructLoop A τ a b end_idx rng [start_idx] {start_idx} start_idx 0 k

theorem constructLoop_deadend {n : ℕ} (A : Fin n → Fin n → W)
    (τ : Fin n → Fin n → ℚ) (a b : ℕ) (end_idx : Fin n) (rng : ℕ → ℚ)
    (path : List (Fin n)) (visited : Finset (Fin n)) (current : Fin n)
    (total : W) (k : ℕ)
    (hguard : current ≠ end_idx ∧ visited.card < n)
    (hsel : select_next_node A τ a b current visited end_idx (rng k) = none) :
    constructLoop A τ a b end_idx rng path visited current total k =
      (([], ⊤), k) := by
  conv_lhs => rw [constructLoop]
  rw [dif_pos hguard]
  split
  · rfl
  · rename_i nxt heq
    rw [hsel] at heq
    cases heq

theorem constructLoop_step {n : ℕ} (A : Fin n → Fin n → W)
    (τ : Fin n → Fin n → ℚ) (a b : ℕ) (end_idx : Fin n) (rng : ℕ → ℚ)
    (path : List (Fin n)) (visited : Finset (Fin n)) (current : Fin n)
    (total : W) (k : ℕ) (nxt : Fin n)
    (hguard : current ≠ end_idx ∧ visited.card < n)
    (hsel : select_next_node A τ a b current visited end_idx (rng k) =
      some nxt) :
    constructLoop A τ a b end_idx rng path visited current total k =
      constructLoop A τ a b end_idx rng (path ++ [nxt])
        (insert nxt visited) nxt (total + A current nxt) (k + 1) := by
  conv_lhs => rw [constructLoop]
  rw [dif_pos hguard]
  split
  · rename_i heq
    rw [hsel] at heq
    cases heq
  · rename_i nxt' heq
    rw [hsel] at heq
    injection heq with h1
    subst h1
    rfl

theorem constructLoop_exit {n : ℕ} (A : Fin n → Fin n → W)
    (τ : Fin n → Fin n → ℚ) (a b : ℕ) (end_idx : Fin n) (rng : ℕ → ℚ)
    (path : List (Fin n)) (visited : Finset (Fin n)) (current : Fin n)
    (total : W) (k : ℕ)
    (hguard : ¬ (current ≠ end_idx ∧ visited.card < n)) :
    constructLoop A τ a b end_idx rng path visited current total k =
      if current ≠ end_idx then (([], ⊤), k) else ((path, total), k) := by
  conv_lhs => rw [constructLoop]
  rw [dif_neg hguard]

end AntColony

namespace AntColony

/-- Loop invariant of `_construct_solution`: the accumulated path is a
duplicate-free walk from the start to the current vertex realizing the
accumulated distance, and its vertex set is the visited set; hence the
loop returns either the failure value or a simple path to the target. -/
theorem constructLoop_spec {n : ℕ} (A : Fin n → Fin n → W)
    (τ : Fin n → Fin n → ℚ) (a b : ℕ) (s end_idx : Fin n) (rng : ℕ → ℚ) :
    ∀ (path : List (Fin n)) (visited : Finset (Fin n)) (current : Fin n)
      (total : W) (k : ℕ),
      path.head? = some s → path.getLast? = some current →
      pathCost A path = total → total ≠ ⊤ → path.Nodup →
      (∀ x, x ∈ path ↔ x ∈ visited) →
      (constructLoop A τ a b end_idx rng path visited current total k).1 =
          ([], (⊤ : W)) ∨
        ((constructLoop A τ a b end_idx rng path visited current
            total k).1.1.head? = some s ∧
         (constructLoop A τ a b end_idx rng path visited current
            total k).1.1.getLast? = some end_idx ∧
         pathCost A (constructLoop A τ a b end_idx rng path visited current
            total k).1.1 =
           (constructLoop A τ a b end_idx rng path visited current
            total k).1.2 ∧
         (constructLoop A τ a b end_idx rng path visited current
            total k).1.1.Nodup) := by
  intro path visited current total k
  induction path, visited, current, total, k
    using constructLoop.induct A τ a b end_idx rng with
  | case1 path visited current total k hguard hsel =>
    intro hh hl hc htot hnd hiff
    rw [constructLoop_deadend A τ a b end_idx rng path visited current total k
      hguard hsel]
    exact Or.inl rfl
  | case2 path visited current total k hguard nxt hsel ih =>
    intro hh hl hc htot hnd hiff
    rw [constructLoop_step A τ a b end_idx rng path visited current total k
      nxt hguard hsel]
    have hmem := mem_unvisitedNeighbors.mp (select_mem hsel)
    have hw : Walk A s current path := ⟨hh, hl, hc ▸ htot⟩
    have hext := walk_extend hw hmem.2
    refine ih ?_ ?_ ?_ ?_ ?_ ?_
    · exact hext.1.1
    · exact hext.1.2.1
    · rw [hext.2, hc]
    · exact WithTop.add_ne_top.mpr ⟨htot, hmem.2⟩
    · rw [List.nodup_append]
      refine ⟨hnd, List.nodup_singleton nxt, ?_⟩
      intro x hx hx'
      rw [List.mem_singleton] at hx'
      subst hx'
      exact hmem.1 ((hiff x).mp hx)
    · intro x
      rw [List.mem_append, List.mem_singleton, Finset.mem_insert, hiff x,
        or_comm]
  | case3 path visited current total k hguard hce =>
    intro hh hl hc htot hnd hiff
    rw [constructLoop_exit A τ a b end_idx rng path visited current total k
      hguard, if_pos hce]
    exact Or.inl rfl
  | case4 path visited current total k hguard hce =>
    intro hh hl hc htot hnd hiff
    rw [constructLoop_exit A τ a b end_idx rng path visited current total k
      hguard, if_neg hce]
    push_neg at hce
    subst hce
    exact Or.inr ⟨hh, hl, hc, hnd⟩

/-- Any result of `_construct_solution` is the failure value or a simple
path from the start to the target realizing the returned distance. -/
theorem construct_spec {n : ℕ} (A : Fin n → Fin n → W)
    (τ : Fin n → Fin n → ℚ) (a b : ℕ) (s end_idx : Fin n) (rng : ℕ → ℚ)
    (k : ℕ) :
    (construct_solution A τ a b s end_idx rng k).1 = ([], (⊤ : W)) ∨
      ((construct_solution A τ a b s end_idx rng k).1.1.head? = some s ∧
       (construct_solution A τ a b s end_idx rng k).1.1.getLast? =
         some end_idx ∧
       pathCost A (construct_solution A τ a b s end_idx rng k).1.1 =
         (construct_solution A τ a b s end_idx rng k).1.2 ∧
       (construct_solution A τ a b s end_idx rng k).1.1.Nodup) := by
  refine constructLoop_spec A τ a b s end_idx rng [s] {s} s 0 k rfl rfl rfl
    ?_ (List.nodup_singleton s) ?_
  · simp
  · intro x
    simp

end AntColony

namespace AntColony

/-- One entry of `np.clip(pheromone, 0.1, 10.0)`. -/
def clip (x : ℚ) : ℚ := min (max x (1 / 10)) 10

/-- One `pheromone[x][y] += deposit` statement. -/
def addAt {n : ℕ} (x y : Fin n) (dep : ℚ) (τ : Fin n → Fin n → ℚ) :
    Fin n → Fin n → ℚ :=
  fun i j => if i = x ∧ j = y then τ i j + dep else τ i j

/-- The deposit loop `for i in range(len(path) - 1)`: both orientations
of every traversed edge. -/
def depositPath {n : ℕ} (dep : ℚ) :
    List (Fin n) → (Fin n → Fin n → ℚ) → Fin n → Fin n → ℚ
  | x :: y :: rest, τ =>
    depositPath dep (y :: rest) (addAt y x dep (addAt x y dep τ))
  | _, τ => τ

/-- One ant's contribution in `_update_pheromones`: skipped for an empty
path or an infinite distance, otherwise `Q / distance` along the path. -/
def depositAnt {n : ℕ} (qc : ℚ) (τ : Fin n → Fin n → ℚ)
    (pd : List (Fin n) × W) : Fin n → Fin n → ℚ :=
  if pd.1 = [] then τ
  else
    match pd.2 with
    | none => τ
    | some d => depositPath (qc / d) pd.1 τ

/-- `AntColonyOptimization._update_pheromones`: evaporation by the factor
`1 - evaporation`, the per-ant deposits, then the clamp into
`[0.1, 10.0]`. -/
def update_pheromones {n : ℕ} (ev qc : ℚ)
    (batch : List (List (Fin n) × W)) (τ : Fin n → Fin n → ℚ) :
    Fin n → Fin n → ℚ :=
  fun i j =>
    clip ((batch.foldl (depositAnt qc) fun i' j' => τ i' j' * (1 - ev)) i j)

/-- The pheromone matrix after a sequence of update steps from the
all-ones initialisation of `__init__`. -/
def pheromoneAfter {n : ℕ} (ev qc : ℚ)
    (batches : List (List (List (Fin n) × W))) : Fin n → Fin n → ℚ :=
  batches.foldl (fun τ batch => update_pheromones ev qc batch τ)
    initPheromone

theorem clip_bounds (x : ℚ) : 1 / 10 ≤ clip x ∧ clip x ≤ 10 := by
  constructor
  · exact le_min (le_max_right x (1 / 10)) (by norm_num)
  · exact min_le_right _ _

theorem foldl_update_bounds {n : ℕ} (ev qc : ℚ) :
    ∀ (batches : List (List (List (Fin n) × W))) (τ : Fin n → Fin n → ℚ),
      (∀ i j, 1 / 10 ≤ τ i j ∧ τ i j ≤ 10) →
      ∀ i j, 1 / 10 ≤
          (batches.foldl (fun τ' batch => update_pheromones ev qc batch τ')
            τ) i j ∧
        (batches.foldl (fun τ' batch => update_pheromones ev qc batch τ')
            τ) i j ≤ 10 := by
  intro batches
  induction batches with
  | nil => intro τ hτ i j; exact hτ i j
  | cons batch rest ih =>
    intro τ _ i j
    exact ih (update_pheromones ev qc batch τ)
      (fun i' j' => clip_bounds _) i j

/-- Claim C3: from the all-ones initialisation, after every number of
completed pheromone-update steps every entry of the pheromone matrix lies
within `[0.1, 10.0]` (at zero steps every entry is `1.0`, also inside the
interval); each update step evaporates by `1 - evaporation`, deposits
`Q / distance` on both orientations of every edge of every successful
ant's path, and clamps every entry into `[0.1, 10.0]`. -/
theorem C3_pheromone_bounds {n : ℕ} (ev qc : ℚ) :
    (∀ i j : Fin n, pheromoneAfter ev qc [] i j = 1) ∧
    ∀ (batches : List (List (List (Fin n) × W))) (i j : Fin n),
      1 / 10 ≤ pheromoneAfter ev qc batches i j ∧
        pheromoneAfter ev qc batches i j ≤ 10 := by
  constructor
  · intro i j
    rfl
  · intro batches i j
    exact foldl_update_bounds ev qc batches initPheromone
      (fun i' j' => by constructor <;> norm_num [initPheromone]) i j

end AntColony

namespace AntColony

/-- One record of `self.history` (node ids left as indices, as
everywhere in this development). -/
structure HistoryEntry (n : ℕ) where
  iteration : ℕ
  best_distance : W
  best_path : List (Fin n)
  avg_distance : Option ℚ

/-- `np.mean` of a rational list, `none` for the empty list (where numpy
yields `nan`). -/
def meanQ (l : List ℚ) : Option ℚ :=
  if l = [] then none else some (l.sum / l.length)

/-- The inner `for ant in range(num_ants)` loop: the list of
`(path, distance)` results in ant order, threading the random stream. -/
def runAnts {n : ℕ} (A : Fin n → Fin n → W) (τ : Fin n → Fin n → ℚ)
    (a b : ℕ) (s end_idx : Fin n) (rng : ℕ → ℚ) :
    ℕ → ℕ → List (List (Fin n) × W) × ℕ
  | 0, k => ([], k)
  | m + 1, k =>
    let r := construct_solution A τ a b s end_idx rng k
    let rest := runAnts A τ a b s end_idx rng m r.2
    (r.1 :: rest.1, rest.2)

/-- The best-so-far update `if path and distance < best_distance`. -/
def updBest {n : ℕ} (best : Option (List (Fin n)) × W)
    (pd : List (Fin n) × W) : Option (List (Fin n)) × W :=
  if pd.1 ≠ [] ∧ pd.2 < best.2 then (some pd.1, pd.2) else best

/-- The mutable state of `AntColonyOptimization.find_shortest_path`
across iterations: pheromone matrix, best path and distance, history,
and the random-stream counter. -/
structure AcoState (n : ℕ) where
  pheromone : Fin n → Fin n → ℚ
  best : Option (List (Fin n)) × W
  history : List (HistoryEntry n)
  k : ℕ

/-- One iteration of the main loop: all ants construct solutions, the
best result is tracked, pheromones are updated, and every tenth (and the
last) iteration is recorded in the history. -/
def acoStep {n : ℕ} (A : Fin n → Fin n → W) (a b : ℕ) (ev qc : ℚ)
    (num_ants iterations : ℕ) (s end_idx : Fin n) (rng : ℕ → ℚ)
    (st : AcoState n) (it : ℕ) : AcoState n :=
  let res := runAnts A st.pheromone a b s end_idx rng num_ants st.k
  let best' := res.1.foldl updBest st.best
  let entry : HistoryEntry n :=
    { iteration := it, best_distance := best'.2,
      best_path := (match best'.1 with | none => [] | some p => p),
      avg_distance := meanQ ((res.1.map Prod.snd).filterMap id) }
  let hist' :=
    if it % 10 = 0 ∨ it = iterations - 1 then st.history ++ [entry]
    else st.history
  { pheromone := update_pheromones ev qc res.1 st.pheromone,
    best := best', history := hist', k := res.2 }

/-- `AntColonyOptimization.find_shortest_path` (wall-clock timing
dropped): the `(path, distance)` pair and the history after all
iterations, from the all-ones pheromone initialisation. -/
def find_shortest_path {n : ℕ} (A : Fin n → Fin n → W) (a b : ℕ)
    (ev qc : ℚ) (num_ants iterations : ℕ) (s end_idx : Fin n)
    (rng : ℕ → ℚ) : (List (Fin n) × W) × List (HistoryEntry n) :=
  let final := (List.range iterations).foldl
    (acoStep A a b ev qc num_ants iterations s end_idx rng)
    { pheromone := initPheromone, best := (none, ⊤), history := [], k := 0 }
  (((match final.best.1 with | none => [] | some p => p), final.best.2),
    final.history)

end AntColony

namespace AntColony

theorem construct_no_walk {n : ℕ} {A : Fin n → Fin n → W} {s t : Fin n}
    (hnr : ¬ Reachable A s t) (τ : Fin n → Fin n → ℚ) (a b : ℕ)
    (rng : ℕ → ℚ) (k : ℕ) :
    (construct_solution A τ a b s t rng k).1.1 = [] ∨
      (construct_solution A τ a b s t rng k).1.2 = ⊤ := by
  rcases construct_spec A τ a b s t rng k with h | ⟨hh, hl, hc, _⟩
  · exact Or.inl (by rw [h])
  · right
    by_contra hne
    refine hnr ⟨(construct_solution A τ a b s t rng k).1.1, hh, hl, ?_⟩
    rw [hc]
    exact hne

theorem foldl_updBest_none {n : ℕ} :
    ∀ (results : List (List (Fin n) × W)),
      (∀ pd ∈ results, pd.1 = [] ∨ pd.2 = ⊤) →
      results.foldl updBest (none, (⊤ : W)) = (none, (⊤ : W)) := by
  intro results
  induction results with
  | nil => intro _; rfl
  | cons pd rest ih =>
    intro hall
    have hstep : updBest ((none : Option (List (Fin n))), (⊤ : W)) pd =
        (none, (⊤ : W)) := by
      rw [updBest]
      rcases hall pd (List.mem_cons_self pd rest) with h | h
      · rw [if_neg]
        intro hcon
        exact hcon.1 h
      · rw [if_neg]
        intro hcon
        rw [h] at hcon
        exact lt_irrefl _ hcon.2
    rw [List.foldl_cons, hstep]
    exact ih fun x hx => hall x (List.mem_cons_of_mem pd hx)

theorem runAnts_no_walk {n : ℕ} {A : Fin n → Fin n → W} {s t : Fin n}
    (hnr : ¬ Reachable A s t) (a b : ℕ) (rng : ℕ → ℚ) :
    ∀ (m : ℕ) (τ : Fin n → Fin n → ℚ) (k : ℕ),
      ∀ pd ∈ (runAnts A τ a b s t rng m k).1, pd.1 = [] ∨ pd.2 = ⊤ := by
  intro m
  induction m with
  | zero =>
    intro τ k pd hpd
    exact absurd hpd (List.not_mem_nil pd)
  | succ m ih =>
    intro τ k pd hpd
    rw [runAnts] at hpd
    dsimp only at hpd
    rcases List.mem_cons.mp hpd with rfl | hmem
    · exact construct_no_walk hnr τ a b rng k
    · exact ih τ _ pd hmem

theorem foldl_acoStep_best {n : ℕ} {A : Fin n → Fin n → W} {s t : Fin n}
    (hnr : ¬ Reachable A s t) (a b : ℕ) (ev qc : ℚ)
    (num_ants iterations : ℕ) (rng : ℕ → ℚ) :
    ∀ (its : List ℕ) (st : AcoState n), st.best = (none, (⊤ : W)) →
      (its.foldl (acoStep A a b ev qc num_ants iterations s t rng)
        st).best = (none, (⊤ : W)) := by
  intro its
  induction its with
  | nil => intro st h; exact h
  | cons it rest ih =>
    intro st h
    rw [List.foldl_cons]
    apply ih
    show (runAnts A st.pheromone a b s t rng num_ants st.k).1.foldl updBest
      st.best = (none, (⊤ : W))
    rw [h]
    exact foldl_updBest_none _ (runAnts_no_walk hnr a b rng num_ants
      st.pheromone st.k)

end AntColony

/-- An edgeless two-vertex graph: only the zero diagonal is finite. -/
def Aiso : Fin 2 → Fin 2 → W := fun i j => if i = j then 0 else ⊤

theorem Aiso_walk_const : ∀ (p : List (Fin 2)) (h l : Fin 2),
    p.head? = some h → p.getLast? = some l → pathCost Aiso p ≠ ⊤ →
    h = l := by
  intro p
  induction p with
  | nil => intro h l hh; cases hh
  | cons x rest ih =>
    intro h l hh hl hc
    cases rest with
    | nil =>
      have h1 : x = h := by simpa using hh
      have h2 : x = l := by simpa using hl
      rw [← h1, h2]
    | cons y rest' =>
      rw [pathCost_cons₂] at hc
      have hxy : Aiso x y ≠ ⊤ := by
        intro hcon
        rw [hcon, top_add] at hc
        exact hc rfl
      have hx : x = y := by
        by_contra hne
        exact hxy (if_neg hne)
      have hh' : x = h := by simpa using hh
      have hl' : (y :: rest').getLast? = some l := by
        rw [List.getLast?_cons_cons] at hl
        exact hl
      have hc' : pathCost Aiso (y :: rest') ≠ ⊤ := by
        intro hcon
        rw [hcon, add_top] at hc
        exact hc rfl
      have hyl := ih y l rfl hl' hc'
      rw [← hh', hx]
      exact hyl

theorem Aiso_not_reachable : ¬ Reachable Aiso 0 1 := by
  rintro ⟨p, hh, hl, hc⟩
  have := Aiso_walk_const p 0 1 hh hl hc
  exact absurd this (by decide)

/-- Claim C2: for every graph in which the end vertex is not reachable
from the start vertex, both solvers report the no-path outcome normally:
`Dijkstra.find_shortest_path` returns the empty path with the infinite
distance, and `AntColonyOptimization.find_shortest_path` returns the
empty path with the infinite distance for every parameter setting and
every random stream — no ant can ever reach the target, so the best
value is never updated. -/
theorem C2_unreachable_both {n : ℕ} (A : Fin n → Fin n → W) (s t : Fin n)
    (hnr : ¬ Reachable A s t) :
    Dijkstra.find_shortest_path A s t = ([], ⊤) ∧
    ∀ (a b : ℕ) (ev qc : ℚ) (num_ants iterations : ℕ) (rng : ℕ → ℚ),
      (AntColony.find_shortest_path A a b ev qc num_ants iterations s t
        rng).1 = ([], ⊤) := by
  refine ⟨Dijkstra.find_shortest_path_unreachable A s t hnr, ?_⟩
  intro a b ev qc num_ants iterations rng
  have hb := AntColony.foldl_acoStep_best hnr a b ev qc num_ants iterations
    rng (List.range iterations)
    { pheromone := AntColony.initPheromone, best := (none, ⊤),
      history := [], k := 0 } rfl
  rw [AntColony.find_shortest_path]
  dsimp only
  rw [hb]

/-- Claim C2, witness: the combined theorem applied to the edgeless
two-vertex graph. -/
theorem C2_witness :
    Dijkstra.find_shortest_path Aiso 0 1 = ([], ⊤) ∧
    ∀ (a b : ℕ) (ev qc : ℚ) (num_ants iterations : ℕ) (rng : ℕ → ℚ),
      (AntColony.find_shortest_path Aiso a b ev qc num_ants iterations 0 1
        rng).1 = ([], ⊤) :=
  C2_unreachable_both Aiso 0 1 Aiso_not_reachable

theorem pathCost_ne_top_consec {n : ℕ} (A : Fin n → Fin n → W) :
    ∀ (p : List (Fin n)) (dflt : Fin n), pathCost A p ≠ ⊤ →
      ∀ i : ℕ, i + 1 < p.length →
        A (p.getD i dflt) (p.getD (i + 1) dflt) ≠ ⊤ := by
  intro p
  induction p with
  | nil =>
    intro dflt _ i hi
    exact absurd hi (by simp)
  | cons x rest ih =>
    intro dflt hc i hi
    cases rest with
    | nil =>
      exact absurd hi (by simp)
    | cons y rest' =>
      rw [pathCost_cons₂] at hc
      obtain ⟨h1, h2⟩ := WithTop.add_ne_top.mp hc
      cases i with
      | zero => exact h1
      | succ i' =>
        have hi' : i' + 1 < (y :: rest').length := by
          simpa using hi
        exact ih dflt h2 i' hi'

namespace AntColony

/-- Claim C9: every path an ACO ant returns with a finite distance is a
simple path realizing that distance: it starts at the start vertex, ends
at the end vertex, repeats no vertex, has length at most the number of
nodes, and joins every consecutive pair of its vertices by a
finite-weight edge. -/
theorem C9_ant_path_simple {n : ℕ} (A : Fin n → Fin n → W)
    (τ : Fin n → Fin n → ℚ) (a b : ℕ) (s e : Fin n) (rng : ℕ → ℚ)
    (k : ℕ) (p : List (Fin n)) (d : W) (k' : ℕ)
    (hrun : construct_solution A τ a b s e rng k = ((p, d), k'))
    (hfin : d ≠ ⊤) :
    SimplePath A s e p ∧ pathCost A p = d ∧ p.head? = some s ∧
      p.getLast? = some e ∧ p.length ≤ n ∧
      ∀ i : ℕ, i + 1 < p.length → A (p.getD i s) (p.getD (i + 1) s) ≠ ⊤ := by
  rcases construct_spec A τ a b s e rng k with h | ⟨hh, hl, hc, hnd⟩
  · rw [hrun] at h
    obtain ⟨-, hd⟩ := Prod.mk.injEq _ _ _ _ ▸ h
    exact absurd hd hfin
  · rw [hrun] at hh hl hc hnd
    have hcost : pathCost A p ≠ ⊤ := by
      rw [hc]
      exact hfin
    have hlen : p.length ≤ n := by
      have := List.Nodup.length_le_card hnd
      simpa using this
    exact ⟨⟨⟨hh, hl, hcost⟩, hnd⟩, hc, hh, hl, hlen,
      fun i hi => pathCost_ne_top_consec A p s hcost i hi⟩

theorem construct_two_eval :
    construct_solution Dijkstra.A2 initPheromone 1 5 0 1
      (fun _ => (1 : ℚ) / 2) 0 = (([0, 1], ((1 : ℚ) : W)), 1) := by
  have h_unvis : unvisitedNeighbors Dijkstra.A2 0 ({0} : Finset (Fin 2)) =
      [1] := by decide
  have hsel : select_next_node Dijkstra.A2 initPheromone 1 5 0 {0} 1
      ((1 : ℚ) / 2) = some 1 := by
    rw [select_next_node, h_unvis]
    norm_num [rawProbs, heuristic, initPheromone, Dijkstra.A2, pickIdx]
  rw [construct_solution,
    constructLoop_step Dijkstra.A2 initPheromone 1 5 1
      (fun _ => (1 : ℚ) / 2) [0] {0} 0 0 0 1 (by decide) hsel,
    constructLoop_exit Dijkstra.A2 initPheromone 1 5 1
      (fun _ => (1 : ℚ) / 2) ([0] ++ [1]) (insert 1 {0}) 1
      (0 + Dijkstra.A2 0 1) (0 + 1) (by decide)]
  norm_num [Dijkstra.A2]

end AntColony

namespace AntColony

/-- Claim C9, witness: the theorem applied to a concrete successful ant
run on the two-vertex unit-edge graph. -/
theorem C9_witness :
    SimplePath Dijkstra.A2 0 1 [0, 1] ∧
      pathCost Dijkstra.A2 [0, 1] = ((1 : ℚ) : W) ∧
      ([0, 1] : List (Fin 2)).head? = some 0 ∧
      ([0, 1] : List (Fin 2)).getLast? = some 1 ∧
      ([0, 1] : List (Fin 2)).length ≤ 2 ∧
      ∀ i : ℕ, i + 1 < ([0, 1] : List (Fin 2)).length →
        Dijkstra.A2 (([0, 1] : List (Fin 2)).getD i 0)
          (([0, 1] : List (Fin 2)).getD (i + 1) 0) ≠ ⊤ :=
  C9_ant_path_simple Dijkstra.A2 initPheromone 1 5 0 1
    (fun _ => (1 : ℚ) / 2) 0 [0, 1] ((1 : ℚ) : W) 1 construct_two_eval
    (by decide)

end AntColony

namespace AntColony

/-- The selection weight exactly as the specification words it: the
pheromone level raised to `alpha` times the heuristic raised to `beta`,
with the heuristic term doubled when the candidate is the target. -/
def specSelectionWeight {n : ℕ} (A : Fin n → Fin n → W)
    (τ : Fin n → Fin n → ℚ) (a b : ℕ) (current end_idx node : Fin n) :
    ℚ :=
  τ current node ^ a * heuristic A current node ^ b *
    (if node = end_idx then 2 else 1)

/-- Claim C5: `_select_next_node` draws the next vertex from the
unvisited finite-edge neighbors of the current vertex, weighting each
candidate by `pheromone^alpha * heuristic^beta` with the heuristic term
doubled for the target; a zero weight sum falls back to a uniform draw
among the unvisited neighbors, and when no unvisited neighbor exists the
selection fails and the ant contributes an empty path with infinite
distance. -/
theorem C5_selection_rule {n : ℕ} (A : Fin n → Fin n → W)
    (τ : Fin n → Fin n → ℚ) (a b : ℕ) (current : Fin n)
    (visited : Finset (Fin n)) (end_idx : Fin n) (r : ℚ) :
    (select_next_node A τ a b current visited end_idx r = none ↔
      unvisitedNeighbors A current visited = []) ∧
    (∀ v, v ∈ unvisitedNeighbors A current visited ↔
      v ∉ visited ∧ A current v ≠ ⊤) ∧
    (rawProbs A τ a b current end_idx
        (unvisitedNeighbors A current visited) =
      (unvisitedNeighbors A current visited).map
        (specSelectionWeight A τ a b current end_idx)) ∧
    (∀ v, select_next_node A τ a b current visited end_idx r = some v →
      v ∈ unvisitedNeighbors A current visited) ∧
    (unvisitedNeighbors A current visited ≠ [] →
      (rawProbs A τ a b current end_idx
        (unvisitedNeighbors A current visited)).sum = 0 →
      select_next_node A τ a b current visited end_idx r =
        some ((unvisitedNeighbors A current visited).getD
          (pickIdx
            (List.replicate (unvisitedNeighbors A current visited).length
              (1 / ((unvisitedNeighbors A current visited).length : ℚ)))
            r)
          current)) ∧
    (∀ (rng : ℕ → ℚ) (path : List (Fin n)) (tot : W) (k : ℕ),
      current ≠ end_idx → visited.card < n →
      unvisitedNeighbors A current visited = [] →
      select_next_node A τ a b current visited end_idx (rng k) = none ∧
      constructLoop A τ a b end_idx rng path visited current tot k =
        (([], ⊤), k)) := by
  refine ⟨select_none_iff A τ a b current visited end_idx r,
    fun v => mem_unvisitedNeighbors, ?_, fun v h => select_mem h, ?_, ?_⟩
  · rw [rawProbs]
    apply List.map_congr_left
    intro v _
    rw [specSelectionWeight]
    by_cases hv : v = end_idx
    · rw [if_pos hv, if_pos hv]
      ring
    · rw [if_neg hv, if_neg hv]
      ring
  · intro hne hsum
    rw [select_next_node, if_neg hne]
    dsimp only
    rw [if_pos hsum, if_pos hsum, List.map_replicate]
  · intro rng path tot k hce hcard hempty
    have hnone : select_next_node A τ a b current visited end_idx
        (rng k) = none :=
      (select_none_iff A τ a b current visited end_idx (rng k)).mpr hempty
    exact ⟨hnone, constructLoop_deadend A τ a b end_idx rng path visited
      current tot k ⟨hce, hcard⟩ hnone⟩

end AntColony

namespace AntColony

/-- Claim C5, witness: the selection-rule theorem applied at a concrete
state on the two-vertex unit-edge graph. -/
theorem C5_witness :
    (select_next_node Dijkstra.A2 initPheromone 1 5 0 {0} 1
        ((1 : ℚ) / 2) = none ↔
      unvisitedNeighbors Dijkstra.A2 0 {0} = []) ∧
    (∀ v, v ∈ unvisitedNeighbors Dijkstra.A2 0 {0} ↔
      v ∉ ({0} : Finset (Fin 2)) ∧ Dijkstra.A2 0 v ≠ ⊤) ∧
    (rawProbs Dijkstra.A2 initPheromone 1 5 0 1
        (unvisitedNeighbors Dijkstra.A2 0 {0}) =
      (unvisitedNeighbors Dijkstra.A2 0 {0}).map
        (specSelectionWeight Dijkstra.A2 initPheromone 1 5 0 1)) ∧
    (∀ v, select_next_node Dijkstra.A2 initPheromone 1 5 0 {0} 1
        ((1 : ℚ) / 2) = some v →
      v ∈ unvisitedNeighbors Dijkstra.A2 0 {0}) ∧
    (unvisitedNeighbors Dijkstra.A2 0 {0} ≠ [] →
      (rawProbs Dijkstra.A2 initPheromone 1 5 0 1
        (unvisitedNeighbors Dijkstra.A2 0 {0})).sum = 0 →
      select_next_node Dijkstra.A2 initPheromone 1 5 0 {0} 1
          ((1 : ℚ) / 2) =
        some ((unvisitedNeighbors Dijkstra.A2 0 {0}).getD
          (pickIdx
            (List.replicate (unvisitedNeighbors Dijkstra.A2 0 {0}).length
              (1 / ((unvisitedNeighbors Dijkstra.A2 0 {0}).length : ℚ)))
            ((1 : ℚ) / 2))
          0)) ∧
    (∀ (rng : ℕ → ℚ) (path : List (Fin 2)) (tot : W) (k : ℕ),
      (0 : Fin 2) ≠ 1 → ({0} : Finset (Fin 2)).card < 2 →
      unvisitedNeighbors Dijkstra.A2 0 {0} = [] →
      select_next_node Dijkstra.A2 initPheromone 1 5 0 {0} 1 (rng k) =
          none ∧
      constructLoop Dijkstra.A2 initPheromone 1 5 1 rng path {0} 0 tot k =
        (([], ⊤), k)) :=
  C5_selection_rule Dijkstra.A2 initPheromone 1 5 0 {0} 1 ((1 : ℚ) / 2)

end AntColony
